import Mathlib

set_option maxRecDepth 8192

/-!
Verification of the response content parser and visualization re-hydration
engine of `frontend/zia/src/App.js` (functions `parseMessage`, `escapeHtml`,
`convertMarkdownTable`, `formatMessage`, and the `VisualizationRenderer`
mount protocol).  Strings are modelled as `List Char`; all definitions are
executable structural recursions translated line by line from the source.
-/

namespace Zia

/-- Whitespace for the purposes of JS `trim()` / `\s` (ASCII subset actually
reachable in the data handled here). -/
def isWS (c : Char) : Bool :=
  c = ' ' || c = '\t' || c = '\n' || c = '\r' || c = '\x0b' || c = '\x0c'

/-- JS `String.prototype.trim`. -/
def trim (s : List Char) : List Char :=
  ((s.dropWhile isWS).reverse.dropWhile isWS).reverse

/-- JS `String.prototype.split(sep)` for a single-character separator. -/
def splitOnChar (sep : Char) : List Char → List (List Char)
  | [] => [[]]
  | c :: t =>
    let r := splitOnChar sep t
    if c = sep then [] :: r
    else
      match r with
      | [] => [[c]]
      | h :: rs => (c :: h) :: rs

/-- `text.split('\n')` as used by `formatMessage` (App.js line 137). -/
def splitLines : List Char → List (List Char) := splitOnChar '\n'

/-- JS `Array.prototype.join('')`. -/
def joinL : List (List Char) → List Char
  | [] => []
  | h :: t => h ++ joinL t

/-- JS `Array.prototype.join('\n')` (App.js lines 29 and 200). -/
def joinNL : List (List Char) → List Char
  | [] => []
  | [l] => l
  | l :: rest => l ++ '\n' :: joinNL rest

/-- Right-hand trim: drop trailing whitespace. -/
def trimR (s : List Char) : List Char := (s.reverse.dropWhile isWS).reverse

/-- ASCII lower-casing on code points, for the `/i` regex flag. -/
def lowerN (n : Nat) : Nat := if 65 ≤ n ∧ n ≤ 90 then n + 32 else n

/-- Case-insensitive character comparison (the `/i` regex flag). -/
def ciEqC (a b : Char) : Bool := lowerN a.toNat = lowerN b.toNat

/-- Case-insensitive "starts with" for literal regex fragments. -/
def ciStarts : List Char → List Char → Bool
  | [], _ => true
  | _ :: _, [] => false
  | a :: x, b :: y => ciEqC a b && ciStarts x y

/-- Index of the first case-insensitive occurrence of `t`, if any: the
semantics of a lazy `[\s\S]*?` followed by the literal `t`. -/
def findCI (t : List Char) : List Char → Option Nat
  | [] => if t.isEmpty then some 0 else none
  | c :: r => if ciStarts t (c :: r) then some 0 else (findCI t r).map (· + 1)

/-- Index of the first exact occurrence of `t` (JS `String.prototype.indexOf`). -/
def findSub (t : List Char) : List Char → Option Nat
  | [] => if t.isEmpty then some 0 else none
  | c :: r => if t.isPrefixOf (c :: r) then some 0 else (findSub t r).map (· + 1)

/-- Length of the maximal leading run of characters different from `c`
(the extent of a greedy `[^c]*`). -/
def runLen (c : Char) (s : List Char) : Nat := (s.takeWhile (fun d => d ≠ c)).length

/-- Greedy `[^c]*` followed by the literal `c`: consumes up to and including
the first occurrence of `c`; fails if `c` does not occur.  Returns the
remaining input and the number of characters consumed. -/
def afterRunExpect (c : Char) (u : List Char) : Option (List Char × Nat) :=
  let a := runLen c u
  match u.drop a with
  | [] => none
  | d :: rest => if d = c then some (rest, a + 1) else none

/-- Match length of `/<!DOCTYPE html>[\s\S]*?<\/html>/i` (App.js line 21) at
the head of `s`. -/
def p1At (s : List Char) : Option Nat :=
  if ciStarts "<!DOCTYPE html>".data s then
    (findCI "</html>".data (s.drop 15)).map (fun d => 15 + d + 7)
  else none

/-- Match length of `/<html[\s\S]*?<\/html>/i` (App.js line 22) at the head
of `s`. -/
def p2At (s : List Char) : Option Nat :=
  if ciStarts "<html".data s then
    (findCI "</html>".data (s.drop 5)).map (fun d => 5 + d + 7)
  else none

/-- Deterministic continuation of the third pattern after its `id="` literal:
`[^"]*"` then `[^>]*>` then `[\s\S]*?<script[\s\S]*?Plotly[\s\S]*?<\/script>`
(all literals case-insensitive). -/
def p3Cont (u : List Char) : Option Nat := do
  let (u1, n1) ← afterRunExpect '"' u
  let (u2, n2) ← afterRunExpect '>' u1
  let d1 ← findCI "<script".data u2
  let u3 := u2.drop (d1 + 7)
  let d2 ← findCI "Plotly".data u3
  let u4 := u3.drop (d2 + 6)
  let d3 ← findCI "</script>".data u4
  some (n1 + n2 + d1 + 7 + d2 + 6 + d3 + 9)

/-- Backtracking over the greedy `[^>]*` before `id="`: try the longest
position `k` first, shorter ones on failure, exactly as the JS regex engine
does. -/
def p3Try (rest : List Char) : Nat → Option Nat
  | 0 =>
    if ciStarts "id=\"".data rest then (p3Cont (rest.drop 4)).map (fun n => 4 + n)
    else none
  | k + 1 =>
    match
      (if ciStarts "id=\"".data (rest.drop (k + 1)) then
        (p3Cont (rest.drop (k + 1 + 4))).map (fun n => k + 1 + 4 + n)
      else none) with
    | some n => some n
    | none => p3Try rest k

/-- Match length of
`/<div[^>]*id="[^"]*"[^>]*>[\s\S]*?<script[\s\S]*?Plotly[\s\S]*?<\/script>/i`
(App.js line 23) at the head of `s`. -/
def p3At (s : List Char) : Option Nat :=
  if ciStarts "<div".data s then
    (p3Try (s.drop 4) (runLen '>' (s.drop 4))).map (fun n => 4 + n)
  else none

/-- Leftmost match of a pattern: scan start positions left to right, as
`String.prototype.match` does; returns (start index, match length). -/
def scanMatch (pAt : List Char → Option Nat) : List Char → Nat → Option (Nat × Nat)
  | [], i => (pAt []).map (fun n => (i, n))
  | c :: t, i =>
    match pAt (c :: t) with
    | some n => some (i, n)
    | none => scanMatch pAt t (i + 1)

/-- The `htmlMatch` chain of App.js lines 21-23: first pattern that matches
wins (`||` on match results). -/
def htmlMatch (s : List Char) : Option (Nat × Nat) :=
  (scanMatch p1At s 0).orElse fun _ =>
    (scanMatch p2At s 0).orElse fun _ => scanMatch p3At s 0

/-- The `ParsedAnswer` value `{text, html, hasVisualization}` of the spec. -/
structure ParsedMsg where
  text : List Char
  html : Option (List Char)
  hasVisualization : Bool
deriving DecidableEq, Repr

/-- `parseMessage` (App.js lines 17-43). -/
def parseMessage (s : List Char) : ParsedMsg :=
  if s.isEmpty then ⟨[], none, false⟩
  else
    match htmlMatch s with
    | some (st, n) =>
      let m := (s.drop st).take n
      let idx := (findSub m s).getD 0
      let before := trim (s.take idx)
      let after := trim (s.drop (idx + n))
      ⟨joinNL (([before, after]).filter (fun t => ! t.isEmpty)), some m, true⟩
    | none => ⟨s, none, false⟩

/-- The apostrophe character `'` (code point 39). -/
def quoteC : Char := Char.ofNat 39

/-- Per-character action of `escapeHtml`'s replacement map (App.js lines 48-54). -/
def escChar (c : Char) : List Char :=
  if c = '&' then "&amp;".data
  else if c = '<' then "&lt;".data
  else if c = '>' then "&gt;".data
  else if c = '"' then "&quot;".data
  else if c = quoteC then "&#039;".data
  else [c]

/-- `escapeHtml` (App.js lines 46-56): `text.replace(/[&<>"']/g, m => map[m])`. -/
def escapeHtml : List Char → List Char
  | [] => []
  | c :: t => escChar c ++ escapeHtml t

/-- The two-character delimiter `**`. -/
def star2 : List Char := ['*', '*']

/-- Fuelled worker for `boldAll`; one unit of fuel per replaced span, each
span consuming at least four characters of the input. -/
def boldAllF : Nat → List Char → List Char
  | 0, s => s
  | f + 1, s =>
    match findSub star2 s with
    | none => s
    | some a =>
      match findSub star2 (s.drop (a + 2)) with
      | none => s
      | some d =>
        s.take a ++ "<strong>".data ++ (s.drop (a + 2)).take d ++ "</strong>".data ++
          boldAllF f (s.drop (a + 2 + d + 2))

/-- The global replacement `.replace(/\*\*(.*?)\*\*/g, '<strong>$1</strong>')`
(App.js lines 96, 108, 266, 276, 285, 301): repeatedly find the next `**`
pair and wrap the (lazily matched) span between them. -/
def boldAll (s : List Char) : List Char := boldAllF s.length s

/-- Character class of the table separator regex `/^[\s|:-]+$/`
(App.js lines 68 and 157). -/
def isSepClass (c : Char) : Bool := isWS c || c = '|' || c = ':' || c = '-'

/-- `/^[\s|:-]+$/.test(t)` for an already-trimmed `t`. -/
def sepShape (t : List Char) : Bool := ! t.isEmpty && t.all isSepClass

/-- Separator test of `convertMarkdownTable` (App.js lines 66-68), applied to
`rows[j].trim()`: contains `|` and consists only of the separator class. -/
def isSepRow (r : List Char) : Bool := (trim r).contains '|' && sepShape (trim r)

/-- Row list of `convertMarkdownTable` (App.js line 60):
`tableText.trim().split('\n').filter(row => row.trim())`. -/
def tableRows (tableText : List Char) : List (List Char) :=
  (splitLines (trim tableText)).filter (fun r => ! (trim r).isEmpty)

/-- Fuelled separator search; `sepIdxOf` supplies fuel 4, exactly the
iterations `j = 1, 2, 3, 4` the source's loop can perform. -/
def sepIdxFrom (rows : List (List Char)) : Nat → Nat → Option Nat
  | _, 0 => none
  | j, fuel + 1 =>
    if j < min rows.length 5 then
      if isSepRow (rows.getD j []) then some j else sepIdxFrom rows (j + 1) fuel
    else none

/-- Separator-row search of `convertMarkdownTable` (App.js lines 64-72):
first `j` in `1 ≤ j < min(rows.length, 5)` whose trimmed row is
separator-shaped. -/
def sepIdxOf (rows : List (List Char)) : Option Nat := sepIdxFrom rows 1 4

/-- Data rows of `convertMarkdownTable` (App.js line 77):
`separatorIndex > 0 ? rows.slice(separatorIndex + 1) : rows.slice(1)`. -/
def dataRowsOf (rows : List (List Char)) : List (List Char) :=
  match sepIdxOf rows with
  | some k => rows.drop (k + 1)
  | none => rows.drop 1

/-- `parseRow` (App.js lines 80-90): split on `|`, trim cells, and drop a
leading/trailing empty cell when the trimmed row starts/ends with `|`. -/
def parseRow (row : List Char) : List (List Char) :=
  let parts0 := (splitOnChar '|' row).map trim
  let t := trim row
  let parts1 :=
    if ¬ parts0.isEmpty ∧ parts0.head? = some [] ∧ t.head? = some '|' then parts0.tail
    else parts0
  let parts2 :=
    if ¬ parts1.isEmpty ∧ parts1.getLast? = some [] ∧ t.getLast? = some '|' then parts1.dropLast
    else parts1
  parts2

/-- One `<th>` cell (App.js lines 93-98): escape, then bold-convert. -/
def thCell (cell : List Char) : List Char :=
  "<th>".data ++ boldAll (escapeHtml cell) ++ "</th>".data

/-- One `<td>` cell (App.js lines 106-109). -/
def tdCell (cell : List Char) : List Char :=
  "<td>".data ++ boldAll (escapeHtml cell) ++ "</td>".data

/-- Header cell fragments (App.js lines 92-99). -/
def headerCellsArr (rows : List (List Char)) : List (List Char) :=
  (parseRow (rows.headD [])).map thCell

/-- Filter applied to data rows (App.js line 103):
`row.trim() && row.includes('|')`. -/
def rowPred (r : List Char) : Bool := ! (trim r).isEmpty && r.contains '|'

/-- Render one data row (App.js lines 104-113): join the `<td>` cells and
wrap them in `<tr>` when non-empty, else the empty string. -/
def trWrap (r : List Char) : List Char :=
  if (joinL ((parseRow r).map tdCell)).isEmpty then []
  else "<tr>".data ++ joinL ((parseRow r).map tdCell) ++ "</tr>".data

/-- `<tr>` fragments of the table body (App.js lines 102-116): keep rows that
pass `rowPred`, render their cells, wrap non-empty cell strings in `<tr>`,
drop rows that produced no cells. -/
def bodyRowsArr (rows : List (List Char)) : List (List Char) :=
  (((dataRowsOf rows).filter rowPred).map trWrap).filter (fun x => ! x.isEmpty)

/-- Leading part of the table template literal (App.js lines 120-123). -/
def tableTplPre : List Char :=
  "\n    <div class=\"table-wrapper\">\n      <table class=\"markdown-table\">\n        <thead><tr>".data

/-- Middle part of the table template literal (App.js lines 123-124). -/
def tableTplMid : List Char := "</tr></thead>\n        <tbody>".data

/-- Trailing part of the table template literal (App.js lines 124-127). -/
def tableTplPost : List Char := "</tbody>\n      </table>\n    </div>\n  ".data

/-- The `No data` placeholder row (App.js line 124). -/
def noDataRow : List Char := "<tr><td colspan=\"100%\">No data</td></tr>".data

/-- `convertMarkdownTable` (App.js lines 59-128). -/
def convertMarkdownTable (tableText : List Char) : Option (List Char) :=
  let rows := tableRows tableText
  if rows.length < 2 then none
  else
    let headerCells := joinL (headerCellsArr rows)
    let bodyRows := joinL (bodyRowsArr rows)
    if headerCells.isEmpty then none
    else
      some (tableTplPre ++ headerCells ++ tableTplMid ++
        (if bodyRows.isEmpty then noDataRow else bodyRows) ++ tableTplPost)

/-- Pipe count of a line (App.js line 215): `(l.match(/\|/g) || []).length`. -/
def pipeCount (l : List Char) : Nat := (l.filter (fun c => c = '|')).length

/-- The table-collection loop of `formatMessage` (App.js lines 153-196).
State: absolute cursor `j` (started at `i + 1`), collected `acc`
(started at `[lines[i]]`), `foundSep`.  Returns (collected lines, final
`j`, `foundSep`).  The loop guard is `j < lines.length && j < i + 50`;
`j` increases by one per iteration, so the supplied fuel of 50 is never
exhausted before the guard fails. -/
def collectLoop (lines : List (List Char)) (i : Nat) :
    Nat → Nat → List (List Char) → Bool → List (List Char) × Nat × Bool
  | 0, j, acc, foundSep => (acc, j, foundSep)
  | fuel + 1, j, acc, foundSep =>
    if j < lines.length ∧ j < i + 50 then
      if ¬ foundSep ∧ (lines.getD j []).contains '|' ∧ sepShape (trim (lines.getD j [])) then
        collectLoop lines i fuel (j + 1) (acc ++ [lines.getD j []]) true
      else if foundSep then
        if (lines.getD j []).contains '|' ∧ ¬ (trim (lines.getD j [])).isEmpty then
          collectLoop lines i fuel (j + 1) (acc ++ [lines.getD j []]) foundSep
        else if (trim (lines.getD j [])).isEmpty then
          match (lines.drop (j + 1)).find? (fun l => ! (trim l).isEmpty) with
          | some l =>
            if ¬ l.contains '|' then (acc ++ [lines.getD j []], j + 1, foundSep)
            else collectLoop lines i fuel (j + 1) (acc ++ [lines.getD j []]) foundSep
          | none => collectLoop lines i fuel (j + 1) (acc ++ [lines.getD j []]) foundSep
        else (acc, j, foundSep)
      else
        if (lines.getD j []).contains '|' ∧ ¬ (trim (lines.getD j [])).isEmpty then
          collectLoop lines i fuel (j + 1) (acc ++ [lines.getD j []]) foundSep
        else if (trim (lines.getD j [])).isEmpty ∧ j < i + 3 then
          collectLoop lines i fuel (j + 1) acc foundSep
        else (acc, j, foundSep)
    else (acc, j, foundSep)

/-- Table collection starting at line `i` (App.js lines 148-150):
`tableLines = [currentLine]`, `j = i + 1`, `foundSeparator = false`. -/
def collectTable (lines : List (List Char)) (i : Nat) : List (List Char) × Nat × Bool :=
  collectLoop lines i 50 (i + 1) [lines.getD i []] false

/-- A processed part (spec's `FormattedLine`): a ready table fragment or a
raw line (App.js lines 205 and 236). -/
inductive MsgPart where
  | table (html : List Char)
  | line (raw : List Char)
deriving DecidableEq, Repr

/-- Decision taken at a pipe-bearing line (App.js lines 198-230): emit a
table fragment (separator path, else the headerless best-effort path) and
the line index to resume at, or fall through to per-line treatment of the
current line only.  Returns `(some fragment, j)` or `(none, i + 1)`. -/
def tableDecision (lines : List (List Char)) (i : Nat) : Option (List Char) × Nat :=
  let r := collectTable lines i
  match
    (if r.2.2 ∧ 3 ≤ r.1.length then convertMarkdownTable (joinNL r.1) else none) with
  | some h => (some h, r.2.1)
  | none =>
    match
      (if ¬ r.2.2 ∧ 2 ≤ r.1.length ∧
          r.1.all (fun l =>
            pipeCount l - pipeCount (r.1.headD []) ≤ 1 ∧
              pipeCount (r.1.headD []) - pipeCount l ≤ 1) ∧
          2 ≤ pipeCount (r.1.headD []) then
        convertMarkdownTable (joinNL r.1)
      else none) with
    | some h => (some h, r.2.1)
    | none => (none, i + 1)

/-- The line walk of `formatMessage` Step 1 (App.js lines 141-238).  Fuel is
the number of remaining outer iterations; the cursor advances by at least
one line per iteration, so fuel `lines.length` is never exhausted. -/
def processLines (lines : List (List Char)) : Nat → Nat → List MsgPart
  | 0, _ => []
  | fuel + 1, i =>
    if i < lines.length then
      if (lines.getD i []).contains '|' then
        match tableDecision lines i with
        | (some h, j) => MsgPart.table h :: processLines lines fuel j
        | (none, j) => MsgPart.line (lines.getD i []) :: processLines lines fuel j
      else MsgPart.line (lines.getD i []) :: processLines lines fuel (i + 1)
    else []

/-- Header-line template opening (App.js line 267). -/
def headerTplPre : List Char :=
  "<div class=\"regular-line\" style=\"font-weight: 600; font-size: 1.1em; margin-top: 0px; margin-bottom: 0px;\">".data

/-- Bullet-point template opening (App.js lines 277 and 286). -/
def bulletTplPre : List Char := "<div class=\"bullet-point\">".data

/-- Indented-item template opening (App.js line 294). -/
def indentTplPre : List Char := "<div class=\"indented-item\">".data

/-- Regular-line template opening (App.js line 302). -/
def regularTplPre : List Char := "<div class=\"regular-line\">".data

/-- Closing tag shared by the line templates. -/
def divClose : List Char := "</div>".data

/-- The line-break fragment (App.js lines 249, 254, 307). -/
def brTag : List Char := "<br>".data

/-- Header fragment (App.js lines 262-270): strip leading `#`s and
whitespace, re-trim; emit nothing when the remainder is empty. -/
def headerFrag (content : List Char) : List (List Char) :=
  if ¬ content.isEmpty then
    [headerTplPre ++ boldAll (escapeHtml content) ++ divClose]
  else []

/-- Per-line classification and rendering of `formatMessage` Step 2
(App.js lines 257-308): header, bullet `•`, single `*` bullet,
indented (`◦` or three leading spaces), plain, blank.  Returns zero or one
fragment (zero for a header stripped to emptiness). -/
def renderLine (line : List Char) : List (List Char) :=
  let t := trim line
  if t.head? = some '#' then
    headerFrag (trim ((t.dropWhile (fun c => c = '#')).dropWhile isWS))
  else if t.head? = some '•' then
    let content := trim (t.drop 1)
    [bulletTplPre ++ boldAll (escapeHtml content) ++ divClose]
  else if t.head? = some '*' ∧ ¬ (t.drop 1).head? = some '*' then
    let content := trim (t.drop 1)
    [bulletTplPre ++ boldAll (escapeHtml content) ++ divClose]
  else if t.head? = some '◦' ∨
      ((' ' :: ' ' :: [' ']).isPrefixOf line ∧ ¬ t.head? = some '*' ∧ ¬ t.head? = some '•') then
    let content := trim (if t.head? = some '◦' then (t.drop 1).dropWhile isWS else t)
    [indentTplPre ++ escapeHtml content ++ divClose]
  else if ¬ t.isEmpty then
    [regularTplPre ++ boldAll (escapeHtml t) ++ divClose]
  else [brTag]

/-- Step 2 of `formatMessage` (App.js lines 241-309): walk the parts,
inserting `<br>` before a table whose predecessor is a non-table part and
after a table whose successor is a non-table part. -/
def fmtLoop : Option Bool → List MsgPart → List (List Char)
  | _, [] => []
  | prev, MsgPart.table h :: rest =>
    (if prev = some false then [brTag] else []) ++ [h] ++
      (match rest.head? with
       | some (MsgPart.line _) => [brTag]
       | _ => []) ++
      fmtLoop (some true) rest
  | _, MsgPart.line l :: rest => renderLine l ++ fmtLoop (some false) rest

/-- `formatMessage` (App.js lines 131-312). -/
def formatMessage (s : List Char) : List Char :=
  if s.isEmpty then []
  else
    let lines := splitLines s
    joinL (fmtLoop none (processLines lines lines.length 0))

/-- Decimal digit character. -/
def digitChar : Nat → Char
  | 0 => '0' | 1 => '1' | 2 => '2' | 3 => '3' | 4 => '4'
  | 5 => '5' | 6 => '6' | 7 => '7' | 8 => '8' | _ => '9'

/-- Fuelled decimal printer; fuel `n + 1` always suffices. -/
def natReprAux : Nat → Nat → List Char
  | 0, _ => []
  | fuel + 1, n =>
    if n < 10 then [digitChar n]
    else natReprAux fuel (n / 10) ++ [digitChar (n % 10)]

/-- Decimal representation of a natural number, as JS string interpolation
`${messageIndex}` produces. -/
def natRepr (n : Nat) : List Char := natReprAux (n + 1) n

/-- Numeric value of a digit character. -/
def digitVal (c : Char) : Nat := c.toNat - 48

/-- Left-to-right decimal reading, inverse of `natRepr`. -/
def decValue (s : List Char) : Nat := s.foldl (fun a c => a * 10 + digitVal c) 0

/-- The render-unique identifier of the Visualization Mounter (App.js line
406): `` `${originalId}-${messageIndex}` ``. -/
def uniqueId (originalId : List Char) (messageIndex : Nat) : List Char :=
  originalId ++ '-' :: natRepr messageIndex

/-- A DOM child of the visualization mount point, as the mounter can create
them: the fresh chart container div, an appended fallback script element, or
the error paragraph written via `innerHTML`. -/
inductive DomNode where
  | chartDiv (id : List Char)
  | scriptEl (txt : List Char)
  | errorP (msg : List Char)
deriving DecidableEq, Repr

/-- The mount point (the `containerRef` div): its list of children. -/
structure MountPoint where
  children : List DomNode
deriving DecidableEq, Repr

/-- An inline script of the parsed visualization markup: `script.src`
presence and `script.textContent`. -/
structure ScriptTag where
  hasSrc : Bool
  text : List Char
deriving DecidableEq, Repr

/-- The parsed body of the visualization markup: the id of the first element
carrying an `id` attribute, and the script tags.  (`DOMParser` itself is a
browser API; its output is what the mounter consumes.) -/
structure ParsedBody where
  chartId : Option (List Char)
  scripts : List ScriptTag
deriving DecidableEq, Repr

/-- Outcome of executing one inline script (App.js lines 439-487).  The
JSON-parse / `new Function` evaluation and the `Plotly.newPlot` call are
browser-side dynamic code execution; their success or failure is an oracle
parameter, while the effect of each outcome on the mount point's children is
taken from the source: a successful extraction draws into the existing chart
div (no child change), a failed extraction or missing `data`/`layout` match
appends a script element (the source rewrites the element id inside its
text first; the rewritten text is irrelevant to the children shape and the
element is modelled with the script's text), and an exception reaching the
outer catch overwrites the container with an inline error paragraph. -/
inductive ScriptOutcome where
  | plotted
  | fallbackScript
  | hardError (msg : List Char)
deriving DecidableEq, Repr

/-- Error strings written by the mounter (App.js lines 360, 400, 484, 492, 497). -/
def plotlyFailMsg : List Char := "Error: Plotly library failed to load".data

/-- Error paragraph text for markup without a body (App.js line 497). -/
def invalidHtmlMsg : List Char := "Error: Invalid HTML structure".data

/-- Error paragraph text for markup without an id-carrying div (App.js line 400). -/
def noChartDivMsg : List Char := "Error: No chart container found in HTML".data

/-- Error paragraph text for markup without an inline script (App.js line 492). -/
def noScriptMsg : List Char := "Error: No script tag found in visualization HTML".data

/-- Effect of processing one script tag on the children list (App.js lines
427-488): external or empty scripts are skipped; otherwise the oracle
outcome is applied. -/
def applyScript (cs : List DomNode) (sc : ScriptTag) (oc : ScriptOutcome) : List DomNode :=
  if sc.hasSrc ∨ sc.text.isEmpty then cs
  else
    match oc with
    | ScriptOutcome.plotted => cs
    | ScriptOutcome.fallbackScript => cs ++ [DomNode.scriptEl sc.text]
    | ScriptOutcome.hardError m => [DomNode.errorP ("Error rendering chart: ".data ++ m)]

/-- Fold of `applyScript` over the script list, consuming one oracle outcome
per script (the `allScripts.forEach` of App.js line 427). -/
def runScripts : List DomNode → List ScriptTag → List ScriptOutcome → List DomNode
  | cs, [], _ => cs
  | cs, sc :: rest, ocs => runScripts (applyScript cs sc (ocs.headD ScriptOutcome.plotted)) rest ocs.tail

/-- `scriptFound` (App.js lines 425-429): some script is inline and non-empty. -/
def scriptFound (scripts : List ScriptTag) : Bool :=
  scripts.any (fun sc => ! sc.hasSrc && ! sc.text.isEmpty)

/-- The mount attempt of `VisualizationRenderer.renderVisualization`
(App.js lines 353-500), after the bounded waits have resolved:
`containerAttached` is whether `containerRef.current` is still non-null,
`plotly` whether `window.Plotly` exists after `waitForPlotly` (which always
resolves, at latest at its 5-second timeout), `body` the parsed markup, and
`outcomes` the per-script execution oracle.  Every branch of the source
either returns normally or writes an inline error into the container; the
model is a total function accordingly. -/
def mountAttempt (containerAttached plotly : Bool) (body : Option ParsedBody)
    (messageIndex : Nat) (outcomes : List ScriptOutcome) (mp : MountPoint) : MountPoint :=
  if ¬ containerAttached then mp
  else if ¬ plotly then ⟨[DomNode.errorP plotlyFailMsg]⟩
  else
    match body with
    | none => ⟨[DomNode.errorP invalidHtmlMsg]⟩
    | some b =>
      match b.chartId with
      | none => ⟨[DomNode.errorP noChartDivMsg]⟩
      | some cid =>
        let inserted := ([] : List DomNode) ++ [DomNode.chartDiv (uniqueId cid messageIndex)]
        let processed := runScripts inserted b.scripts outcomes
        if scriptFound b.scripts then ⟨processed⟩
        else ⟨[DomNode.errorP noScriptMsg]⟩

/-- Number of chart container elements among the children. -/
def chartCount (cs : List DomNode) : Nat :=
  (cs.filter (fun n => match n with | DomNode.chartDiv _ => true | _ => false)).length

/-- A user-visible inline error is present in the mount point. -/
def errVisible (mp : MountPoint) : Bool :=
  mp.children.any (fun n => match n with | DomNode.errorP _ => true | _ => false)

/-- Executable substring test: `hasSubstr n s` iff `n` occurs contiguously in `s`. -/
def hasSubstr (n s : List Char) : Bool := decide (n <:+: s)

/-- The three-character sequence `<sc`; no string built by `formatMessage`
ever contains it, which rules out any `<script>` occurrence. -/
def ltsc : List Char := ['<', 's', 'c']

/-- The forbidden tag `<script>`. -/
def scriptTag : List Char := "<script>".data

/-- Tail check on a reversed string: the first (reversed) character must not
be `<`, and the first two must not be `s`, `<`. -/
def tailOKrev : List Char → Bool
  | [] => true
  | [c] => ! (c == '<')
  | c :: d :: _ => ! (c == '<') && ! (c == 's' && d == '<')

/-- A string neither ends with `<` nor with `<s`: appending further safe text
to it cannot complete an occurrence of `<sc` across the boundary. -/
def tailOK (s : List Char) : Bool := tailOKrev s.reverse

/-- Safety invariant carried through every string `formatMessage` builds:
no occurrence of `<sc`, and no dangling `<`/`<s` at the end. -/
def SafeQ (s : List Char) : Prop := ¬ (ltsc <:+: s) ∧ tailOK s = true

/-- No outcome in the list is a `hardError`. -/
def noHardError (ocs : List ScriptOutcome) : Bool :=
  ocs.all (fun oc => match oc with | ScriptOutcome.hardError _ => false | _ => true)

/-- One of the five entity bodies produced by `escapeHtml` starts here:
`amp;`, `lt;`, `gt;`, `quot;` or `#039;` (the bodies of `&amp;`, `&lt;`,
`&gt;`, `&quot;` and `&#039;` from the map at App.js lines 47-53). -/
def entityPre (r : List Char) : Bool :=
  "amp;".data.isPrefixOf r || "lt;".data.isPrefixOf r || "gt;".data.isPrefixOf r ||
    "quot;".data.isPrefixOf r || "#039;".data.isPrefixOf r

/-- Entity form of escaped text: no raw `<`, `>`, `"` or `'` occurs at all,
and every `&` opens one of the five entities of `escapeHtml`'s map, so each
metacharacter of the original text is present only as its entity. -/
def entOnly : List Char → Bool
  | [] => true
  | c :: rest =>
    if c = '<' ∨ c = '>' ∨ c = '"' ∨ c = quoteC then false
    else if c = '&' then entityPre rest && entOnly rest
    else entOnly rest

/-- The opening tag inserted by bold conversion, without its leading `<`. -/
def strongOpenRest : List Char := "strong>".data

/-- The closing tag inserted by bold conversion, without its leading `<`. -/
def strongCloseRest : List Char := "/strong>".data

/-- Fuelled scanner for prose content after escaping and bold conversion:
raw `>`, `"` and `'` never occur, every `&` opens one of the five entities,
and every `<` opens exactly `<strong>` or `</strong>`, whose body is
skipped.  One unit of fuel is spent per examined head character, so
`s.length` units always suffice. -/
def proseOkF : Nat → List Char → Bool
  | _, [] => true
  | 0, _ :: _ => false
  | f + 1, c :: rest =>
    if c = '<' then
      if strongOpenRest.isPrefixOf rest then proseOkF f (rest.drop 7)
      else if strongCloseRest.isPrefixOf rest then proseOkF f (rest.drop 8)
      else false
    else if c = '>' ∨ c = '"' ∨ c = quoteC then false
    else if c = '&' then entityPre rest && proseOkF f rest
    else proseOkF f rest

/-- Prose-content check with sufficient fuel: all input metacharacters are
in entity form and the only raw angle brackets delimit emphasis tags. -/
def proseOk (s : List Char) : Bool := proseOkF s.length s

/-- The spec's example answer: prose, a full embedded document, more prose. -/
def chartEx : List Char := "Here is a chart:\n<!DOCTYPE html>ok</html>\nThanks".data

theorem htmlMatch_nil_eq : htmlMatch ([] : List Char) = none := by decide

/-- C1: whenever one of the three detection patterns matches (DOCTYPE
document first, else bare `<html>` document, else an id-carrying div
followed by a Plotly-referencing script block), `parseMessage` returns
`hasVisualization = true`, `html` equal to exactly the first matched span,
and `text` equal to the text before and after the span's occurrence (the
source splits at `indexOf` of the matched span, which is the match
position), each trimmed, empty parts dropped, joined by one newline. -/
theorem parseMessage_match_spec (s : List Char) (st n : Nat)
    (h : htmlMatch s = some (st, n)) :
    parseMessage s =
      { text := joinNL (([trim (s.take ((findSub ((s.drop st).take n) s).getD 0)),
            trim (s.drop ((findSub ((s.drop st).take n) s).getD 0 + n))]).filter
          (fun t => ! t.isEmpty)),
        html := some ((s.drop st).take n),
        hasVisualization := true } := by
  have hs : s.isEmpty = false := by
    cases s with
    | nil => rw [htmlMatch_nil_eq] at h; cases h
    | cons c t => rfl
  simp only [parseMessage, hs, Bool.false_eq_true, if_false, h]

/-- Witness for C1 at the spec's own example: the document is extracted
exactly and the prose is the before/after text joined by a newline. -/
theorem parseMessage_match_spec_witness :
    parseMessage chartEx =
      { text := "Here is a chart:\nThanks".data,
        html := some "<!DOCTYPE html>ok</html>".data,
        hasVisualization := true } := by
  have h : htmlMatch chartEx = some (17, 24) := by decide
  rw [parseMessage_match_spec chartEx 17 24 h]
  decide

/-- C9: when none of the three detection patterns matches, `parseMessage`
returns the original text unchanged, `html = none` and
`hasVisualization = false`. -/
theorem parseMessage_noMatch_spec (s : List Char) (h : htmlMatch s = none) :
    parseMessage s = ⟨s, none, false⟩ := by
  cases s with
  | nil => rfl
  | cons c t => simp only [parseMessage, List.isEmpty_cons, Bool.false_eq_true, if_false, h]

/-- Witness for C9 on a plain text. -/
theorem parseMessage_noMatch_spec_witness :
    parseMessage "No markup in here, just words.".data =
      ⟨"No markup in here, just words.".data, none, false⟩ :=
  parseMessage_noMatch_spec _ (by decide)

theorem digitVal_digitChar (k : Nat) (h : k < 10) : digitVal (digitChar k) = k := by
  interval_cases k <;> rfl

theorem decValue_append_digit (s : List Char) (c : Char) :
    decValue (s ++ [c]) = decValue s * 10 + digitVal c := by
  simp [decValue, List.foldl_append]

theorem decValue_natReprAux (fuel : Nat) :
    ∀ n : Nat, n < fuel → decValue (natReprAux fuel n) = n := by
  induction fuel with
  | zero => intro n hn; omega
  | succ f ih =>
    intro n hn
    by_cases h10 : n < 10
    · simp [natReprAux, h10, decValue, digitVal_digitChar n h10]
    · have hdiv : n / 10 < n := Nat.div_lt_self (by omega) (by norm_num)
      have hf : n / 10 < f := by omega
      simp only [natReprAux, h10, if_false]
      rw [decValue_append_digit, ih _ hf, digitVal_digitChar _ (Nat.mod_lt _ (by norm_num))]
      omega

theorem natRepr_inj {m n : Nat} (h : natRepr m = natRepr n) : m = n := by
  have hm : decValue (natRepr m) = m := decValue_natReprAux (m + 1) m (by omega)
  have hn : decValue (natRepr n) = n := decValue_natReprAux (n + 1) n (by omega)
  rw [← hm, h, hn]

/-- C2: the render-unique identifiers `` `${originalId}-${messageIndex}` ``
are injective in the message index: distinct indices with the same source
element id always yield distinct rendered element ids. -/
theorem uniqueId_injective (s : List Char) (i j : Nat) (h : i ≠ j) :
    uniqueId s i ≠ uniqueId s j := by
  intro he
  apply h
  have h2 := List.append_cancel_left he
  simp only [List.cons.injEq, true_and] at h2
  exact natRepr_inj h2

/-- Witness for C2: message indices 0 and 1 with the same source id. -/
theorem uniqueId_injective_witness :
    uniqueId "chart".data 0 ≠ uniqueId "chart".data 1 :=
  uniqueId_injective "chart".data 0 1 (by decide)

/-- C6: the Escaper replaces each of `&`, `<`, `>`, `"`, `'` by its named
entity, leaves every other character unchanged (acting independently per
character), and is not idempotent: re-escaping an escaped `&` changes it
again. -/
theorem escapeHtml_contract :
    (escChar '&' = "&amp;".data ∧ escChar '<' = "&lt;".data ∧ escChar '>' = "&gt;".data ∧
      escChar '"' = "&quot;".data ∧ escChar quoteC = "&#039;".data) ∧
    (∀ c : Char, c ≠ '&' → c ≠ '<' → c ≠ '>' → c ≠ '"' → c ≠ quoteC → escChar c = [c]) ∧
    (∀ s : List Char, escapeHtml s = joinL (s.map escChar)) ∧
    escapeHtml (escapeHtml ['&']) ≠ escapeHtml ['&'] := by
  refine ⟨by decide, ?_, ?_, by decide⟩
  · intro c h1 h2 h3 h4 h5
    simp [escChar, h1, h2, h3, h4, h5]
  · intro s
    induction s with
    | nil => rfl
    | cons c t ih => simp [escapeHtml, joinL, ih]

/-- Witness for C6: a neutral character passes through unchanged, and the
double-escaping disequality is inherited directly. -/
theorem escapeHtml_contract_witness :
    escChar 'x' = ['x'] ∧ escapeHtml (escapeHtml ['&']) ≠ escapeHtml ['&'] :=
  ⟨escapeHtml_contract.2.1 'x' (by decide) (by decide) (by decide) (by decide) (by decide),
    escapeHtml_contract.2.2.2⟩

/-- C7: if the charting runtime is still unavailable after the bounded wait
(`waitForPlotly` always resolves, at latest at its 5-second timeout), the
mount attempt terminates with the mount point containing exactly the inline
error paragraph, whatever the markup, index, script outcomes or previous
contents were; the model is a total function, mirroring that this branch
performs no throwing operation, so no exception escapes, and only this
message's mount point is touched. -/
theorem mount_plotly_unavailable (body : Option ParsedBody) (idx : Nat)
    (ocs : List ScriptOutcome) (mp : MountPoint) :
    mountAttempt true false body idx ocs mp = ⟨[DomNode.errorP plotlyFailMsg]⟩ ∧
      errVisible (mountAttempt true false body idx ocs mp) = true := by
  constructor <;> rfl

theorem chartCount_append_script (cs : List DomNode) (t : List Char) :
    chartCount (cs ++ [DomNode.scriptEl t]) = chartCount cs := by
  simp [chartCount, List.filter_append]

theorem applyScript_chartCount_le (cs : List DomNode) (sc : ScriptTag) (oc : ScriptOutcome) :
    chartCount (applyScript cs sc oc) ≤ chartCount cs := by
  unfold applyScript
  split
  · exact Nat.le_refl _
  · cases oc with
    | plotted => exact Nat.le_refl _
    | fallbackScript => rw [chartCount_append_script]
    | hardError m => simp [chartCount]

theorem runScripts_chartCount_le (scripts : List ScriptTag) :
    ∀ (cs : List DomNode) (ocs : List ScriptOutcome),
      chartCount (runScripts cs scripts ocs) ≤ chartCount cs := by
  induction scripts with
  | nil => intro cs ocs; exact Nat.le_refl _
  | cons sc rest ih =>
    intro cs ocs
    exact Nat.le_trans (ih _ ocs.tail) (applyScript_chartCount_le cs sc _)

theorem applyScript_chartCount_eq (cs : List DomNode) (sc : ScriptTag) (oc : ScriptOutcome)
    (h : ∀ m, oc ≠ ScriptOutcome.hardError m) :
    chartCount (applyScript cs sc oc) = chartCount cs := by
  unfold applyScript
  split
  · rfl
  · cases oc with
    | plotted => rfl
    | fallbackScript => rw [chartCount_append_script]
    | hardError m => exact absurd rfl (h m)

theorem runScripts_chartCount_eq (scripts : List ScriptTag) :
    ∀ (cs : List DomNode) (ocs : List ScriptOutcome), noHardError ocs = true →
      chartCount (runScripts cs scripts ocs) = chartCount cs := by
  induction scripts with
  | nil => intro cs ocs _; rfl
  | cons sc rest ih =>
    intro cs ocs hocs
    have hhead : ∀ m, ocs.headD ScriptOutcome.plotted ≠ ScriptOutcome.hardError m := by
      intro m he
      cases ocs with
      | nil => cases he
      | cons o os =>
        simp only [List.headD_cons] at he
        subst he
        simp [noHardError] at hocs
    have htail : noHardError ocs.tail = true := by
      cases ocs with
      | nil => rfl
      | cons o os =>
        simp only [noHardError, List.all_cons, Bool.and_eq_true] at hocs
        exact hocs.2
    rw [runScripts, ih _ ocs.tail htail, applyScript_chartCount_eq _ _ _ hhead]

/-- C8: re-invoking the mounter for the same message slot cannot accumulate
charts: the result never depends on the mount point's previous children
(the container is cleared before the fresh chart container is inserted),
the children always hold at most one chart container, and on the success
path (runtime present, body parsed, an id-carrying div found, an inline
script present, no script execution error) exactly one. -/
theorem mount_no_duplicate_charts :
    (∀ (pl : Bool) (body : Option ParsedBody) (idx : Nat) (ocs : List ScriptOutcome)
        (mp mp' : MountPoint),
        mountAttempt true pl body idx ocs mp = mountAttempt true pl body idx ocs mp') ∧
    (∀ (pl : Bool) (body : Option ParsedBody) (idx : Nat) (ocs : List ScriptOutcome)
        (mp : MountPoint),
        chartCount (mountAttempt true pl body idx ocs mp).children ≤ 1) ∧
    (∀ (b : ParsedBody) (cid : List Char) (idx : Nat) (ocs : List ScriptOutcome)
        (mp : MountPoint),
        b.chartId = some cid → scriptFound b.scripts = true → noHardError ocs = true →
        chartCount (mountAttempt true true (some b) idx ocs mp).children = 1) := by
  refine ⟨?_, ?_, ?_⟩
  · intro pl body idx ocs mp mp'
    cases pl <;> rcases body with _ | b <;> rfl
  · intro pl body idx ocs mp
    cases pl with
    | false => rcases body with _ | b <;> simp [mountAttempt, chartCount]
    | true =>
      rcases body with _ | b
      · simp [mountAttempt, chartCount]
      · rcases hb : b.chartId with _ | cid
        · simp [mountAttempt, hb, chartCount]
        · by_cases hsf : scriptFound b.scripts = true
          · simp only [mountAttempt, hb]
            simp only [not_true, if_false, hsf, if_true]
            refine Nat.le_trans (runScripts_chartCount_le b.scripts _ ocs) ?_
            simp [chartCount]
          · simp [mountAttempt, hb, hsf, chartCount]
  · intro b cid idx ocs mp hb hsf hocs
    simp only [mountAttempt, hb]
    simp only [not_true, if_false, hsf, if_true]
    rw [runScripts_chartCount_eq b.scripts _ ocs hocs]
    simp [chartCount]

/-- Witness for C8's success-path conjunct: a prior render's children are
discarded and exactly one chart container remains. -/
theorem mount_no_duplicate_charts_witness :
    chartCount (mountAttempt true true
        (some ⟨some "chart".data, [⟨false, "var data = [];".data⟩]⟩) 0
        [ScriptOutcome.plotted]
        ⟨[DomNode.chartDiv "chart-0".data, DomNode.chartDiv "chart-0".data]⟩).children = 1 :=
  mount_no_duplicate_charts.2.2 ⟨some "chart".data, [⟨false, "var data = [];".data⟩]⟩
    "chart".data 0 [ScriptOutcome.plotted] ⟨[DomNode.chartDiv "chart-0".data,
      DomNode.chartDiv "chart-0".data]⟩ rfl (by decide) (by decide)

theorem collectLoop_len (lines : List (List Char)) (i : Nat) :
    ∀ (fuel j : Nat) (acc : List (List Char)) (fs : Bool),
      j ≤ i + 50 →
      (collectLoop lines i fuel j acc fs).1.length ≤ acc.length + (i + 50 - j) := by
  intro fuel
  induction fuel with
  | zero => intro j acc fs _; simp [collectLoop]
  | succ f ih =>
    intro j acc fs hj
    rw [collectLoop]
    by_cases hg : j < lines.length ∧ j < i + 50
    · rw [if_pos hg]
      have hj50 : j < i + 50 := hg.2
      have hstep : ∀ (acc' : List (List Char)) (fs' : Bool) (l : List Char),
          (collectLoop lines i f (j + 1) (acc' ++ [l]) fs').1.length ≤
            acc'.length + 1 + (i + 50 - (j + 1)) := by
        intro acc' fs' l
        refine Nat.le_trans (ih (j + 1) _ _ (by omega)) ?_
        simp
      by_cases h1 : ¬ fs = true ∧ (lines.getD j []).contains '|' = true ∧
          sepShape (trim (lines.getD j [])) = true
      · rw [if_pos h1]
        exact Nat.le_trans (hstep acc true _) (by omega)
      · rw [if_neg h1]
        by_cases h2 : fs = true
        · rw [if_pos h2]
          by_cases h3 : (lines.getD j []).contains '|' = true ∧
              ¬ (trim (lines.getD j [])).isEmpty = true
          · rw [if_pos h3]
            exact Nat.le_trans (hstep acc fs _) (by omega)
          · rw [if_neg h3]
            by_cases h4 : (trim (lines.getD j [])).isEmpty = true
            · rw [if_pos h4]
              rcases hf : (lines.drop (j + 1)).find? (fun l => ! (trim l).isEmpty) with _ | l
              · simp only [hf]
                exact Nat.le_trans (hstep acc fs _) (by omega)
              · simp only [hf]
                by_cases h5 : ¬ l.contains '|' = true
                · rw [if_pos h5]
                  simp only [List.length_append, List.length_cons, List.length_nil]
                  omega
                · rw [if_neg h5]
                  exact Nat.le_trans (hstep acc fs _) (by omega)
            · rw [if_neg h4]
              simp
        · rw [if_neg h2]
          by_cases h6 : (lines.getD j []).contains '|' = true ∧
              ¬ (trim (lines.getD j [])).isEmpty = true
          · rw [if_pos h6]
            exact Nat.le_trans (hstep acc fs _) (by omega)
          · rw [if_neg h6]
            by_cases h7 : (trim (lines.getD j [])).isEmpty = true ∧ j < i + 3
            · rw [if_pos h7]
              refine Nat.le_trans (ih (j + 1) _ _ (by omega)) ?_
              omega
            · rw [if_neg h7]
              simp
    · rw [if_neg hg]
      simp

theorem sepIdxFrom_none (rows : List (List Char)) :
    ∀ (fuel j : Nat),
      (∀ jj, j ≤ jj → jj < j + fuel → isSepRow (rows.getD jj []) = false) →
      sepIdxFrom rows j fuel = none := by
  intro fuel
  induction fuel with
  | zero => intro j _; rfl
  | succ f ih =>
    intro j h
    rw [sepIdxFrom]
    by_cases hlt : j < min rows.length 5
    · rw [if_pos hlt, h j (Nat.le_refl j) (by omega)]
      simp only [Bool.false_eq_true, if_false]
      exact ih (j + 1) (fun jj h1 h2 => h jj (by omega) (by omega))
    · rw [if_neg hlt]

/-- C10: the table lookahead of the Block Formatter collects at most 50
lines into one candidate (the scan stops 50 lines past the start), and the
Table Converter recognizes a separator only among rows 1 to 4: when none of
those rows is separator-shaped, the search yields nothing and the block's
data rows are taken as if no separator existed (everything after the header
row). -/
theorem table_scan_bounds :
    (∀ (lines : List (List Char)) (i : Nat), (collectTable lines i).1.length ≤ 50) ∧
    (∀ rows : List (List Char),
      (∀ j, 1 ≤ j → j ≤ 4 → isSepRow (rows.getD j []) = false) →
      sepIdxOf rows = none ∧ dataRowsOf rows = rows.drop 1) := by
  constructor
  · intro lines i
    refine Nat.le_trans (collectLoop_len lines i 50 (i + 1) [lines.getD i []] false (by omega)) ?_
    simp only [List.length_cons, List.length_nil]
    omega
  · intro rows h
    have e : sepIdxOf rows = none :=
      sepIdxFrom_none rows 4 1 (fun jj h1 h2 => h jj h1 (by omega))
    exact ⟨e, by simp [dataRowsOf, e]⟩

/-- Witness for C10: a concrete scan obeys the 50-line bound, and a block
whose first pipe-and-dash row sits at index 5 is treated as separator-free. -/
theorem table_scan_bounds_witness :
    (collectTable (splitLines "|a|\n|b|".data) 0).1.length ≤ 50 ∧
      (sepIdxOf (tableRows "|a|\n|b|\n|c|\n|d|\n|e|\n|-|\n|f|".data) = none ∧
        dataRowsOf (tableRows "|a|\n|b|\n|c|\n|d|\n|e|\n|-|\n|f|".data) =
          (tableRows "|a|\n|b|\n|c|\n|d|\n|e|\n|-|\n|f|".data).drop 1) :=
  ⟨table_scan_bounds.1 (splitLines "|a|\n|b|".data) 0,
    table_scan_bounds.2 (tableRows "|a|\n|b|\n|c|\n|d|\n|e|\n|-|\n|f|".data)
      (by intro j h1 h2; interval_cases j <;> decide)⟩

theorem tdCell_ne_nil (p : List Char) : tdCell p ≠ [] := by
  intro h
  have h2 := congrArg List.length h
  rw [tdCell, List.length_append, List.length_append] at h2
  have e1 : ("<td>".data).length = 4 := rfl
  rw [e1] at h2
  simp at h2

theorem joinL_map_tdCell_eq_nil (ps : List (List Char)) :
    joinL (ps.map tdCell) = [] ↔ ps = [] := by
  cases ps with
  | nil => simp [joinL]
  | cons p rest =>
    simp only [List.map_cons, joinL]
    constructor
    · intro h
      exact absurd (List.append_eq_nil.mp h).1 (tdCell_ne_nil p)
    · intro h
      cases h

/-- C3 counterexample: the Block Formatter collects the run
`|a|`, `|b|`, `|-|`, `|c|` (separator found, four lines), but the emitted
table has one data row while two non-separator lines follow the header —
the line `|b|`, collected before the separator, is silently dropped, so the
claim's count equality fails. -/
theorem table_sep_counts_counterexample :
    collectTable (splitLines "|a|\n|b|\n|-|\n|c|".data) 0 =
        (tableRows "|a|\n|b|\n|-|\n|c|".data, 4, true) ∧
      3 ≤ (tableRows "|a|\n|b|\n|-|\n|c|".data).length ∧
      sepIdxOf (tableRows "|a|\n|b|\n|-|\n|c|".data) = some 2 ∧
      (bodyRowsArr (tableRows "|a|\n|b|\n|-|\n|c|".data)).length = 1 ∧
      (((tableRows "|a|\n|b|\n|-|\n|c|".data).drop 1).filter
          (fun r => ! isSepRow r)).length = 2 ∧
      (bodyRowsArr (tableRows "|a|\n|b|\n|-|\n|c|".data)).length ≠
        (((tableRows "|a|\n|b|\n|-|\n|c|".data).drop 1).filter
          (fun r => ! isSepRow r)).length := by
  refine ⟨?_, ?_, ?_, ?_, ?_, ?_⟩ <;> decide

/-- C3 (amended): when the converter finds a separator at index `k`, the
emitted fragment takes the first collected line as header and drops the
separator together with every line before it: the `<th>` cell count equals
the header's pipe-delimited cell count, and the `<tr>` data rows are exactly
the lines after the separator that are non-blank, contain a pipe, and parse
to at least one cell. -/
theorem table_sep_counts (t : List Char) (k : Nat)
    (hsep : sepIdxOf (tableRows t) = some k) :
    (headerCellsArr (tableRows t)).length = (parseRow ((tableRows t).headD [])).length ∧
    (bodyRowsArr (tableRows t)).length =
      (((tableRows t).drop (k + 1)).filter
        (fun r => rowPred r && ! (parseRow r).isEmpty)).length := by
  constructor
  · simp [headerCellsArr]
  · have hd : dataRowsOf (tableRows t) = (tableRows t).drop (k + 1) := by
      unfold dataRowsOf
      rw [hsep]
    unfold bodyRowsArr
    rw [hd, List.filter_map, List.length_map, List.filter_filter]
    apply congrArg List.length
    apply List.filter_congr
    intro r _
    by_cases hp : parseRow r = []
    · simp [trWrap, hp, joinL, Bool.and_comm]
    · have hc : joinL ((parseRow r).map tdCell) ≠ [] :=
        fun h => hp ((joinL_map_tdCell_eq_nil _).mp h)
      simp [trWrap, hc, Bool.and_comm]
      exact fun _ => hp

/-- Witness for the amended C3 on a well-formed table. -/
theorem table_sep_counts_witness :
    (headerCellsArr (tableRows "|a|\n|-|\n|c|".data)).length =
        (parseRow ((tableRows "|a|\n|-|\n|c|".data).headD [])).length ∧
      (bodyRowsArr (tableRows "|a|\n|-|\n|c|".data)).length =
        (((tableRows "|a|\n|-|\n|c|".data).drop 2).filter
          (fun r => rowPred r && ! (parseRow r).isEmpty)).length :=
  table_sep_counts "|a|\n|-|\n|c|".data 1 (by decide)

theorem safeQ_of_checks {s : List Char} (h1 : decide (ltsc <:+: s) = false)
    (h2 : tailOK s = true) : SafeQ s :=
  ⟨of_decide_eq_false h1, h2⟩

theorem safeQ_nil : SafeQ [] := safeQ_of_checks (by decide) (by decide)

theorem infix_of_append_split {n a b : List Char} (h : n <:+: a ++ b) :
    n <:+: a ∨ n <:+: b ∨
      ∃ n1 n2, n = n1 ++ n2 ∧ n1 ≠ [] ∧ n2 ≠ [] ∧ n1 <:+ a ∧ n2 <+: b := by
  obtain ⟨s, t, he⟩ := h
  rw [List.append_assoc] at he
  rcases List.append_eq_append_iff.mp he with ⟨x, hx1, hx2⟩ | ⟨x, hx1, hx2⟩
  · rcases List.append_eq_append_iff.mp hx2 with ⟨y, hy1, hy2⟩ | ⟨y, hy1, hy2⟩
    · left
      exact ⟨s, y, by rw [hx1, hy1, List.append_assoc]⟩
    · by_cases hx : x = []
      · right; left
        subst hx
        rw [List.nil_append] at hx2
        exact ⟨[], t, by simpa using hx2⟩
      · by_cases hy : y = []
        · left
          subst hy
          rw [List.append_nil] at hy1
          refine ⟨s, [], ?_⟩
          rw [List.append_nil, hy1, hx1]
        · right; right
          exact ⟨x, y, hy1, hx, hy, ⟨s, hx1.symm⟩, ⟨t, hy2.symm⟩⟩
  · right; left
    exact ⟨x, t, by rw [hx2, List.append_assoc]⟩

theorem tailOK_not_sfx_lt {a : List Char} (h : tailOK a = true) : ¬ (['<'] <:+ a) := by
  rintro ⟨u, hu⟩
  have h2 : tailOKrev ('<' :: u.reverse) = true := by
    rw [← hu, tailOK, List.reverse_append] at h
    simpa using h
  rcases ur : u.reverse with _ | ⟨d, r⟩ <;> rw [ur] at h2 <;> simp [tailOKrev] at h2

theorem tailOK_not_sfx_lts {a : List Char} (h : tailOK a = true) : ¬ (['<', 's'] <:+ a) := by
  rintro ⟨u, hu⟩
  have h2 : tailOKrev ('s' :: '<' :: u.reverse) = true := by
    rw [← hu, tailOK, List.reverse_append] at h
    simpa using h
  simp [tailOKrev] at h2

theorem tailOK_append {a b : List Char} (ha : tailOK a = true) (hb : tailOK b = true) :
    tailOK (a ++ b) = true := by
  rcases hb' : b.reverse with _ | ⟨c, rest⟩
  · have hbe : b = [] := by simpa using congrArg List.reverse hb'
    subst hbe
    simpa using ha
  · have hab : (a ++ b).reverse = c :: (rest ++ a.reverse) := by
      rw [List.reverse_append, hb', List.cons_append]
    rw [tailOK, hab]
    rw [tailOK, hb'] at hb
    rcases rest with _ | ⟨d, rest'⟩
    · simp only [List.nil_append]
      rcases ha' : a.reverse with _ | ⟨d, arest⟩
      · exact hb
      · rw [tailOKrev]
        have hd : (d == '<') = false := by
          rw [tailOK, ha'] at ha
          rcases arest with _ | ⟨e, ar'⟩
          · simpa [tailOKrev] using ha
          · rw [tailOKrev, Bool.and_eq_true] at ha
            simpa using ha.1
        rw [tailOKrev] at hb
        simp [hb, hd]
    · rw [List.cons_append, tailOKrev]
      rw [tailOKrev] at hb
      exact hb

theorem safeQ_append {a b : List Char} (ha : SafeQ a) (hb : SafeQ b) : SafeQ (a ++ b) := by
  refine ⟨?_, tailOK_append ha.2 hb.2⟩
  intro h
  rcases infix_of_append_split h with h | h | ⟨n1, n2, he, h1, h2, hsuf, hpre⟩
  · exact ha.1 h
  · exact hb.1 h
  · rcases n1 with _ | ⟨c1, _ | ⟨c2, _ | ⟨c3, n1r⟩⟩⟩
    · exact h1 rfl
    · have he' : '<' :: 's' :: 'c' :: [] = c1 :: n2 := he
      injection he' with e1 e2
      rw [← e1] at hsuf
      exact tailOK_not_sfx_lt ha.2 hsuf
    · have he' : '<' :: 's' :: 'c' :: [] = c1 :: c2 :: n2 := he
      injection he' with e1 he''
      injection he'' with e2 e3
      rw [← e1, ← e2] at hsuf
      exact tailOK_not_sfx_lts ha.2 hsuf
    · have he' : '<' :: 's' :: 'c' :: [] = c1 :: c2 :: c3 :: (n1r ++ n2) := he
      injection he' with e1 he''
      injection he'' with e2 he'''
      injection he''' with e3 e4
      exact h2 (List.append_eq_nil.mp e4.symm).2

theorem safeQ_of_not_mem {s : List Char} (h : '<' ∉ s) : SafeQ s := by
  constructor
  · intro hin
    apply h
    exact hin.subset (by decide)
  · rcases hs : s.reverse with _ | ⟨c, rest⟩
    · rw [tailOK, hs]
      rfl
    · rw [tailOK, hs]
      have hc : c ∈ s := by
        rw [← List.mem_reverse, hs]
        exact List.mem_cons_self _ _
      have hcne : ¬ c = '<' := fun e => h (e ▸ hc)
      rcases rest with _ | ⟨d, rest'⟩
      · simp [tailOKrev, hcne]
      · have hd : d ∈ s := by
          rw [← List.mem_reverse, hs]
          exact List.mem_cons_of_mem _ (List.mem_cons_self _ _)
        have hdne : ¬ d = '<' := fun e => h (e ▸ hd)
        simp [tailOKrev, hcne, hdne]

theorem safeQ_joinL {L : List (List Char)} (h : ∀ x ∈ L, SafeQ x) : SafeQ (joinL L) := by
  induction L with
  | nil => exact safeQ_nil
  | cons x L ih =>
    exact safeQ_append (h x (List.mem_cons_self _ _))
      (ih fun y hy => h y (List.mem_cons_of_mem _ hy))

theorem lt_not_mem_escChar (c : Char) : '<' ∉ escChar c := by
  rw [escChar]
  split_ifs with h1 h2 h3 h4 h5
  · decide
  · decide
  · decide
  · decide
  · decide
  · simp only [List.mem_singleton]
    exact fun e => h2 e.symm

theorem lt_not_mem_escapeHtml (s : List Char) : '<' ∉ escapeHtml s := by
  induction s with
  | nil => simp [escapeHtml]
  | cons c t ih =>
    simp only [escapeHtml, List.mem_append]
    rintro (h | h)
    · exact lt_not_mem_escChar c h
    · exact ih h

theorem safeQ_boldAllF : ∀ (f : Nat) (s : List Char), '<' ∉ s → SafeQ (boldAllF f s) := by
  intro f
  induction f with
  | zero => intro s h; exact safeQ_of_not_mem h
  | succ f ih =>
    intro s h
    rcases h1 : findSub star2 s with _ | a
    · simp only [boldAllF, h1]
      exact safeQ_of_not_mem h
    · rcases h2 : findSub star2 (s.drop (a + 2)) with _ | d
      · simp only [boldAllF, h1, h2]
        exact safeQ_of_not_mem h
      · simp only [boldAllF, h1, h2]
        refine safeQ_append (safeQ_append (safeQ_append (safeQ_append ?_ ?_) ?_) ?_) ?_
        · exact safeQ_of_not_mem fun hm => h (List.take_subset _ _ hm)
        · exact safeQ_of_checks (by decide) (by decide)
        · exact safeQ_of_not_mem fun hm => h (List.drop_subset _ _ (List.take_subset _ _ hm))
        · exact safeQ_of_checks (by decide) (by decide)
        · exact ih _ fun hm => h (List.drop_subset _ _ hm)

theorem safeQ_boldEsc (x : List Char) : SafeQ (boldAll (escapeHtml x)) :=
  safeQ_boldAllF _ _ (lt_not_mem_escapeHtml x)

theorem safeQ_thCell (c : List Char) : SafeQ (thCell c) :=
  safeQ_append (safeQ_append (safeQ_of_checks (by decide) (by decide)) (safeQ_boldEsc c))
    (safeQ_of_checks (by decide) (by decide))

theorem safeQ_tdCell (c : List Char) : SafeQ (tdCell c) :=
  safeQ_append (safeQ_append (safeQ_of_checks (by decide) (by decide)) (safeQ_boldEsc c))
    (safeQ_of_checks (by decide) (by decide))

theorem headerFrag_safe (c : List Char) : ∀ x ∈ headerFrag c, SafeQ x := by
  intro x hx
  rw [headerFrag] at hx
  split at hx
  · rw [List.mem_singleton] at hx
    subst hx
    exact safeQ_append (safeQ_append (safeQ_of_checks (by decide) (by decide))
      (safeQ_boldEsc _)) (safeQ_of_checks (by decide) (by decide))
  · cases hx

theorem renderLine_safe (l : List Char) : ∀ x ∈ renderLine l, SafeQ x := by
  intro x hx
  rw [renderLine] at hx
  split at hx
  · exact headerFrag_safe _ x hx
  · split at hx
    · rw [List.mem_singleton] at hx
      subst hx
      exact safeQ_append (safeQ_append (safeQ_of_checks (by decide) (by decide))
        (safeQ_boldEsc _)) (safeQ_of_checks (by decide) (by decide))
    · split at hx
      · rw [List.mem_singleton] at hx
        subst hx
        exact safeQ_append (safeQ_append (safeQ_of_checks (by decide) (by decide))
          (safeQ_boldEsc _)) (safeQ_of_checks (by decide) (by decide))
      · split at hx
        · rw [List.mem_singleton] at hx
          subst hx
          exact safeQ_append (safeQ_append (safeQ_of_checks (by decide) (by decide))
            (safeQ_of_not_mem (lt_not_mem_escapeHtml _)))
            (safeQ_of_checks (by decide) (by decide))
        · split at hx
          · rw [List.mem_singleton] at hx
            subst hx
            exact safeQ_append (safeQ_append (safeQ_of_checks (by decide) (by decide))
              (safeQ_boldEsc _)) (safeQ_of_checks (by decide) (by decide))
          · rw [List.mem_singleton] at hx
            subst hx
            exact safeQ_of_checks (by decide) (by decide)

theorem convert_safe {t h : List Char} (hc : convertMarkdownTable t = some h) : SafeQ h := by
  simp only [convertMarkdownTable] at hc
  by_cases h1 : (tableRows t).length < 2
  · rw [if_pos h1] at hc; cases hc
  · rw [if_neg h1] at hc
    by_cases h2 : (joinL (headerCellsArr (tableRows t))).isEmpty = true
    · rw [if_pos h2] at hc; cases hc
    · rw [if_neg h2] at hc
      injection hc with hc'
      subst hc'
      refine safeQ_append (safeQ_append (safeQ_append (safeQ_append
        (safeQ_of_checks (by decide) (by decide)) ?_)
        (safeQ_of_checks (by decide) (by decide))) ?_)
        (safeQ_of_checks (by decide) (by decide))
      · refine safeQ_joinL ?_
        intro x hx
        rw [headerCellsArr] at hx
        obtain ⟨c, _, hcx⟩ := List.mem_map.mp hx
        rw [← hcx]
        exact safeQ_thCell c
      · split
        · exact safeQ_of_checks (by decide) (by decide)
        · refine safeQ_joinL ?_
          intro x hx
          rw [bodyRowsArr] at hx
          have hx' := List.mem_of_mem_filter hx
          obtain ⟨r, _, hrx⟩ := List.mem_map.mp hx'
          rw [← hrx, trWrap]
          split
          · exact safeQ_nil
          · exact safeQ_append (safeQ_append (safeQ_of_checks (by decide) (by decide))
              (safeQ_joinL fun y hy => by
                obtain ⟨c, _, hcy⟩ := List.mem_map.mp hy
                rw [← hcy]
                exact safeQ_tdCell c)) (safeQ_of_checks (by decide) (by decide))

theorem tableDecision_safe {lines : List (List Char)} {i : Nat} {h : List Char} {j : Nat}
    (he : tableDecision lines i = (some h, j)) : SafeQ h := by
  rw [tableDecision] at he
  split at he
  · rename_i heq
    injection he with he1 he2
    rw [he1] at heq
    split at heq
    · exact convert_safe heq
    · cases heq
  · split at he
    · rename_i heq
      injection he with he1 he2
      rw [he1] at heq
      split at heq
      · exact convert_safe heq
      · cases heq
    · injection he with he1 he2
      cases he1

theorem processLines_tables_safe (lines : List (List Char)) :
    ∀ (fuel i : Nat) (h : List Char), MsgPart.table h ∈ processLines lines fuel i → SafeQ h := by
  intro fuel
  induction fuel with
  | zero => intro i h hm; simp [processLines] at hm
  | succ f ih =>
    intro i h hm
    rw [processLines] at hm
    split at hm
    · split at hm
      · split at hm
        · rename_i heq
          rcases List.mem_cons.mp hm with hm | hm
          · injection hm with hm'
            exact tableDecision_safe (hm' ▸ heq)
          · exact ih _ _ hm
        · rcases List.mem_cons.mp hm with hm | hm
          · cases hm
          · exact ih _ _ hm
      · rcases List.mem_cons.mp hm with hm | hm
        · cases hm
        · exact ih _ _ hm
    · simp at hm

theorem fmtLoop_safe (parts : List MsgPart) :
    (∀ h, MsgPart.table h ∈ parts → SafeQ h) →
      ∀ (prev : Option Bool), ∀ x ∈ fmtLoop prev parts, SafeQ x := by
  induction parts with
  | nil => intro _ prev x hx; simp [fmtLoop] at hx
  | cons p rest ih =>
    intro hp prev x hx
    cases p with
    | table h =>
      simp only [fmtLoop, List.append_assoc, List.mem_append] at hx
      rcases hx with hx | hx | hx | hx
      · split at hx
        · rw [List.mem_singleton] at hx
          subst hx
          exact safeQ_of_checks (by decide) (by decide)
        · cases hx
      · rw [List.mem_singleton] at hx
        subst hx
        exact hp x (List.mem_cons_self _ _)
      · split at hx
        all_goals
          first
            | (rw [List.mem_singleton] at hx
               subst hx
               exact safeQ_of_checks (by decide) (by decide))
            | cases hx
      · exact ih (fun h' hm => hp h' (List.mem_cons_of_mem _ hm)) (some true) x hx
    | line l =>
      simp only [fmtLoop, List.mem_append] at hx
      rcases hx with hx | hx
      · exact renderLine_safe l x hx
      · exact ih (fun h' hm => hp h' (List.mem_cons_of_mem _ hm)) (some false) x hx

theorem formatMessage_safe (s : List Char) : SafeQ (formatMessage s) := by
  rw [formatMessage]
  split
  · exact safeQ_nil
  · exact safeQ_joinL (fmtLoop_safe _
      (fun h hm => processLines_tables_safe _ _ _ h hm) none)

/-- For every input string, the prose HTML emitted by `formatMessage` never
contains the substring `<script>`: every text-bearing path escapes the input
(turning `<` into `&lt;`) before bold conversion, and the only `<`
characters in the output come from the fixed tag templates and the
`<strong>` wrappers, none of which is followed by `sc`. -/
theorem formatMessage_no_script_substr (text : List Char) :
    hasSubstr scriptTag (formatMessage text) = false := by
  have h := (formatMessage_safe text).1
  rw [hasSubstr]
  apply decide_eq_false
  intro hin
  exact h (List.IsInfix.trans (List.IsPrefix.isInfix (by decide)) hin)

theorem contains_iff_mem {l : List Char} {c : Char} : l.contains c = true ↔ c ∈ l :=
  List.elem_iff

theorem mem_dropWhile_of_neg {p : Char → Bool} {c : Char} {l : List Char}
    (hc : p c = false) (hm : c ∈ l) : c ∈ l.dropWhile p := by
  induction l with
  | nil => cases hm
  | cons a t ih =>
    rw [List.dropWhile_cons]
    split
    · rename_i ha
      rcases List.mem_cons.mp hm with he | hm'
      · subst he
        rw [hc] at ha
        cases ha
      · exact ih hm'
    · exact hm

theorem mem_trimR {c : Char} {l : List Char} (hc : isWS c = false) (hm : c ∈ l) :
    c ∈ trimR l := by
  rw [trimR, List.mem_reverse]
  exact mem_dropWhile_of_neg hc (List.mem_reverse.mpr hm)

theorem trim_eq_trimR_dropWhile (l : List Char) : trim l = trimR (l.dropWhile isWS) := rfl

theorem mem_trim {c : Char} {l : List Char} (hc : isWS c = false) (hm : c ∈ l) :
    c ∈ trim l := by
  rw [trim_eq_trimR_dropWhile]
  exact mem_trimR hc (mem_dropWhile_of_neg hc hm)

theorem mem_of_mem_trimR {c : Char} {l : List Char} (hm : c ∈ trimR l) : c ∈ l := by
  rw [trimR, List.mem_reverse] at hm
  exact List.mem_reverse.mp ((List.dropWhile_sublist isWS).subset hm)

theorem trim_ne_nil_of_pipe {l : List Char} (h : l.contains '|' = true) :
    (trim l).isEmpty = false := by
  have hm : '|' ∈ trim l := mem_trim (by decide) (contains_iff_mem.mp h)
  cases htl : trim l with
  | nil => rw [htl] at hm; cases hm
  | cons a t => rfl

theorem pipeCount_append (a b : List Char) :
    pipeCount (a ++ b) = pipeCount a + pipeCount b := by
  simp [pipeCount, List.filter_append]

theorem pipeCount_ws_nil {l : List Char} (h : ∀ c ∈ l, isWS c = true) : pipeCount l = 0 := by
  rw [pipeCount]
  rw [List.filter_eq_nil_iff.mpr ?_]
  · rfl
  · intro c hc hpc
    have := h c hc
    rw [show c = '|' from by simpa using hpc] at this
    cases this

theorem pipeCount_dropWhile_ws (l : List Char) :
    pipeCount (l.dropWhile isWS) = pipeCount l := by
  conv_rhs => rw [← List.takeWhile_append_dropWhile (p := isWS) (l := l)]
  rw [pipeCount_append, pipeCount_ws_nil fun c hc => List.mem_takeWhile_imp hc]
  omega

theorem splitOnChar_not_mem (sep : Char) :
    ∀ (s : List Char), ∀ l ∈ splitOnChar sep s, sep ∉ l := by
  intro s
  induction s with
  | nil =>
    intro l hl
    simp only [splitOnChar, List.mem_singleton] at hl
    subst hl
    simp
  | cons c t ih =>
    intro l hl
    simp only [splitOnChar] at hl
    by_cases hc : c = sep
    · rw [if_pos hc] at hl
      rcases List.mem_cons.mp hl with he | hm
      · subst he; simp
      · exact ih l hm
    · rw [if_neg hc] at hl
      cases hr : splitOnChar sep t with
      | nil =>
        simp only [hr, List.mem_singleton] at hl
        subst hl
        intro hmem
        rcases List.mem_cons.mp hmem with he2 | hm2
        · exact hc he2.symm
        · cases hm2
      | cons hh rs =>
        simp only [hr] at hl
        rcases List.mem_cons.mp hl with he | hm
        · subst he
          intro hmem
          rcases List.mem_cons.mp hmem with he2 | hm2
          · exact hc he2.symm
          · exact ih hh (by rw [hr]; exact List.mem_cons_self _ _) hm2
        · exact ih l (by rw [hr]; exact List.mem_cons_of_mem _ hm)

theorem splitOnChar_self {sep : Char} {a : List Char} (h : sep ∉ a) :
    splitOnChar sep a = [a] := by
  induction a with
  | nil => rfl
  | cons c t ih =>
    have hc : ¬ c = sep := fun e => h (e ▸ List.mem_cons_self _ _)
    have ih' := ih fun hm => h (List.mem_cons_of_mem _ hm)
    simp only [splitOnChar, if_neg hc, ih']

theorem splitOnChar_append_cons {sep : Char} {a : List Char} (u : List Char) (h : sep ∉ a) :
    splitOnChar sep (a ++ sep :: u) = a :: splitOnChar sep u := by
  induction a with
  | nil => simp [splitOnChar]
  | cons c t ih =>
    have hc : ¬ c = sep := fun e => h (e ▸ List.mem_cons_self _ _)
    have ih' := ih fun hm => h (List.mem_cons_of_mem _ hm)
    rw [List.cons_append]
    simp only [splitOnChar, if_neg hc, ih']

theorem joinNL_cons_cons (a b : List Char) (X : List (List Char)) :
    joinNL (a :: b :: X) = a ++ '\n' :: joinNL (b :: X) := rfl

theorem joinNL_cons_ne {a : List Char} {Y : List (List Char)} (h : Y ≠ []) :
    joinNL (a :: Y) = a ++ '\n' :: joinNL Y := by
  rcases Y with _ | ⟨b, Z⟩
  · cases h rfl
  · rfl

theorem mem_joinNL {c : Char} :
    ∀ {tl : List (List Char)} {l : List Char}, l ∈ tl → c ∈ l → c ∈ joinNL tl := by
  intro tl
  induction tl with
  | nil => intro l h; cases h
  | cons a rest ih =>
    intro l hl hc
    rcases rest with _ | ⟨b, rest'⟩
    · rcases List.mem_cons.mp hl with he | hm
      · subst he; exact hc
      · cases hm
    · rw [joinNL_cons_cons]
      rcases List.mem_cons.mp hl with he | hm
      · subst he
        exact List.mem_append.mpr (Or.inl hc)
      · exact List.mem_append.mpr (Or.inr (List.mem_cons_of_mem _ (ih hm hc)))

theorem splitLines_joinNL :
    ∀ (X : List (List Char)), X ≠ [] → (∀ l ∈ X, '\n' ∉ l) →
      splitLines (joinNL X) = X := by
  intro X
  induction X with
  | nil => intro h; cases h rfl
  | cons a rest ih =>
    intro _ hall
    rcases rest with _ | ⟨b, rest'⟩
    · exact splitOnChar_self (hall a (List.mem_cons_self _ _))
    · rw [joinNL_cons_cons]
      show splitOnChar '\n' (a ++ '\n' :: joinNL (b :: rest')) = a :: b :: rest'
      rw [splitOnChar_append_cons _ (hall a (List.mem_cons_self _ _))]
      have := ih (by simp) fun l hl => hall l (List.mem_cons_of_mem _ hl)
      rw [show splitOnChar '\n' (joinNL (b :: rest')) = splitLines (joinNL (b :: rest')) from rfl,
        this]

theorem trimR_append {x y : List Char} (hy : trimR y ≠ []) : trimR (x ++ y) = x ++ trimR y := by
  have h2 : (y.reverse.dropWhile isWS).isEmpty = false := by
    cases he : y.reverse.dropWhile isWS with
    | nil => exact absurd (by rw [trimR, he]; rfl) hy
    | cons a t => rfl
  rw [trimR, List.reverse_append, List.dropWhile_append, h2]
  simp [trimR]

theorem trimR_ne_nil {c : Char} {y : List Char} (hws : isWS c = false) (hm : c ∈ y) :
    trimR y ≠ [] := by
  intro h
  have := mem_trimR hws hm
  rw [h] at this
  cases this

theorem trimR_joinNL :
    ∀ (rest : List (List Char)) (hne : rest ≠ []),
      (∀ l ∈ rest, l.contains '|' = true) →
      trimR (joinNL rest) = joinNL (rest.dropLast ++ [trimR (rest.getLast hne)]) := by
  intro rest
  induction rest with
  | nil => intro h; cases h rfl
  | cons l1 rest' ih =>
    intro hne hall
    rcases rest' with _ | ⟨l2, rest''⟩
    · simp [joinNL, List.dropLast, List.getLast]
    · rw [joinNL_cons_cons]
      have hpipe : '|' ∈ joinNL (l2 :: rest'') :=
        mem_joinNL (List.mem_cons_self _ _)
          (contains_iff_mem.mp (hall l2 (List.mem_cons_of_mem _ (List.mem_cons_self _ _))))
      have hJ : trimR (joinNL (l2 :: rest'')) ≠ [] := trimR_ne_nil (by decide) hpipe
      have hJ2 : trimR ('\n' :: joinNL (l2 :: rest'')) ≠ [] :=
        trimR_ne_nil (by decide) (List.mem_cons_of_mem _ hpipe)
      rw [trimR_append hJ2]
      rw [show ('\n' :: joinNL (l2 :: rest'')) = ['\n'] ++ joinNL (l2 :: rest'') from rfl]
      rw [trimR_append hJ]
      rw [ih (by simp) fun l hl => hall l (List.mem_cons_of_mem _ hl)]
      rw [List.dropLast_cons₂]
      have egl : (l1 :: l2 :: rest'').getLast hne = (l2 :: rest'').getLast (by simp) :=
        List.getLast_cons (by simp)
      rw [egl]
      conv_rhs => rw [List.cons_append]
      rw [joinNL_cons_ne (show (l2 :: rest'').dropLast ++
        [trimR ((l2 :: rest'').getLast (by simp))] ≠ [] from by simp)]
      simp

theorem tableRows_joinNL (l0 l1 : List Char) (rest : List (List Char))
    (hall : ∀ l ∈ l0 :: l1 :: rest, l.contains '|' = true ∧ '\n' ∉ l) :
    tableRows (joinNL (l0 :: l1 :: rest)) =
      (l0.dropWhile isWS) ::
        ((l1 :: rest).dropLast ++ [trimR ((l1 :: rest).getLast (by simp))]) := by
  have h0 := hall l0 (List.mem_cons_self _ _)
  have hms : '|' ∈ l0.dropWhile isWS :=
    mem_dropWhile_of_neg (by decide) (contains_iff_mem.mp h0.1)
  have hS1 : (joinNL (l0 :: l1 :: rest)).dropWhile isWS =
      l0.dropWhile isWS ++ '\n' :: joinNL (l1 :: rest) := by
    rw [joinNL_cons_cons, List.dropWhile_append]
    have he : (l0.dropWhile isWS).isEmpty = false := by
      cases he2 : l0.dropWhile isWS with
      | nil => rw [he2] at hms; cases hms
      | cons a t => rfl
    rw [he]
    simp
  have hpipeJ : '|' ∈ joinNL (l1 :: rest) :=
    mem_joinNL (List.mem_cons_self _ _)
      (contains_iff_mem.mp (hall l1 (List.mem_cons_of_mem _ (List.mem_cons_self _ _))).1)
  have hJ : trimR (joinNL (l1 :: rest)) ≠ [] := trimR_ne_nil (by decide) hpipeJ
  have hJ2 : trimR ('\n' :: joinNL (l1 :: rest)) ≠ [] :=
    trimR_ne_nil (by decide) (List.mem_cons_of_mem _ hpipeJ)
  have htrim : trim (joinNL (l0 :: l1 :: rest)) =
      l0.dropWhile isWS ++ '\n' :: trimR (joinNL (l1 :: rest)) := by
    rw [trim_eq_trimR_dropWhile, hS1, trimR_append hJ2,
      show ('\n' :: joinNL (l1 :: rest)) = ['\n'] ++ joinNL (l1 :: rest) from rfl,
      trimR_append hJ]
    rfl
  have hsplit : splitLines (trim (joinNL (l0 :: l1 :: rest))) =
      (l0.dropWhile isWS) ::
        splitLines (trimR (joinNL (l1 :: rest))) := by
    rw [htrim]
    show splitOnChar '\n' _ = _
    rw [splitOnChar_append_cons _
      (fun hm => h0.2 ((List.dropWhile_sublist isWS).subset hm))]
    rfl
  have hchar : trimR (joinNL (l1 :: rest)) =
      joinNL ((l1 :: rest).dropLast ++ [trimR ((l1 :: rest).getLast (by simp))]) :=
    trimR_joinNL (l1 :: rest) (by simp)
      fun l hl => (hall l (List.mem_cons_of_mem _ hl)).1
  have hX : splitLines (trimR (joinNL (l1 :: rest))) =
      (l1 :: rest).dropLast ++ [trimR ((l1 :: rest).getLast (by simp))] := by
    rw [hchar]
    refine splitLines_joinNL _ (by simp) ?_
    intro l hl
    rcases List.mem_append.mp hl with hl | hl
    · exact (hall l (List.mem_cons_of_mem _ ((List.dropLast_sublist _).subset hl))).2
    · rw [List.mem_singleton] at hl
      subst hl
      intro hm
      exact (hall _ (List.mem_cons_of_mem _ (List.getLast_mem _))).2 (mem_of_mem_trimR hm)
  rw [tableRows, hsplit, hX]
  refine List.filter_eq_self.mpr ?_
  intro r hr
  have hrp : r.contains '|' = true := by
    rcases List.mem_cons.mp hr with he | hm
    · subst he
      exact contains_iff_mem.mpr hms
    · rcases List.mem_append.mp hm with hm | hm
      · exact (hall r (List.mem_cons_of_mem _ ((List.dropLast_sublist _).subset hm))).1
      · rw [List.mem_singleton] at hm
        subst hm
        exact contains_iff_mem.mpr (mem_trimR (by decide)
          (contains_iff_mem.mp (hall _ (List.mem_cons_of_mem _ (List.getLast_mem _))).1))
  rw [trim_ne_nil_of_pipe hrp]
  rfl

theorem tableRows_joinNL_facts (tl : List (List Char)) (h2 : 2 ≤ tl.length)
    (hall : ∀ l ∈ tl, l.contains '|' = true ∧ '\n' ∉ l) :
    (tableRows (joinNL tl)).length = tl.length ∧
      pipeCount ((tableRows (joinNL tl)).headD []) = pipeCount (tl.headD []) := by
  rcases tl with _ | ⟨l0, _ | ⟨l1, rest⟩⟩
  · simp at h2
  · simp at h2
  · rw [tableRows_joinNL l0 l1 rest hall]
    constructor
    · simp only [List.length_cons, List.length_append, List.length_dropLast,
        List.length_nil]
      simp
    · simp only [List.headD_cons]
      exact pipeCount_dropWhile_ws l0

theorem splitOnChar_length (sep : Char) :
    ∀ l : List Char, (splitOnChar sep l).length = (l.filter (fun c => c = sep)).length + 1 := by
  intro l
  induction l with
  | nil => rfl
  | cons c t ih =>
    simp only [splitOnChar]
    by_cases hc : c = sep
    · rw [if_pos hc]
      simp only [List.length_cons, ih, List.filter_cons]
      simp [hc]
    · rw [if_neg hc]
      cases hr : splitOnChar sep t with
      | nil => rw [hr] at ih; simp at ih
      | cons hh rs =>
        rw [hr] at ih
        simp only [List.length_cons] at ih ⊢
        simp only [List.filter_cons]
        simp [hc, ih]

theorem parseRow_length_ge {r : List Char} (h : 2 ≤ pipeCount r) :
    1 ≤ (parseRow r).length := by
  have hp0 : ((splitOnChar '|' r).map trim).length = pipeCount r + 1 := by
    rw [List.length_map, splitOnChar_length]
    rfl
  rw [parseRow]
  split
  · split
    · rw [List.length_dropLast, List.length_tail]
      omega
    · rw [List.length_tail]
      omega
  · split
    · rw [List.length_dropLast]
      omega
    · omega

theorem thCell_ne_nil (p : List Char) : thCell p ≠ [] := by
  intro h
  have h2 := congrArg List.length h
  rw [thCell, List.length_append, List.length_append] at h2
  have e1 : ("<th>".data).length = 4 := rfl
  rw [e1] at h2
  simp at h2

theorem joinL_map_thCell_ne_nil {ps : List (List Char)} (h : ps ≠ []) :
    (joinL (ps.map thCell)).isEmpty = false := by
  rcases ps with _ | ⟨p, rest⟩
  · cases h rfl
  · simp only [List.map_cons, joinL]
    cases he : thCell p ++ joinL (rest.map thCell) with
    | nil => exact absurd (List.append_eq_nil.mp he).1 (thCell_ne_nil p)
    | cons a t => rfl

theorem collectLoop_fs_true (lines : List (List Char)) (i : Nat) :
    ∀ (fuel j : Nat) (acc : List (List Char)),
      (collectLoop lines i fuel j acc true).2.2 = true := by
  intro fuel
  induction fuel with
  | zero => intro j acc; rfl
  | succ f ih =>
    intro j acc
    rw [collectLoop]
    by_cases hg : j < lines.length ∧ j < i + 50
    · rw [if_pos hg, if_neg (by simp), if_pos rfl]
      by_cases h3 : (lines.getD j []).contains '|' = true ∧
          ¬ (trim (lines.getD j [])).isEmpty = true
      · rw [if_pos h3]
        exact ih _ _
      · rw [if_neg h3]
        by_cases h4 : (trim (lines.getD j [])).isEmpty = true
        · rw [if_pos h4]
          rcases hf : (lines.drop (j + 1)).find? (fun l => ! (trim l).isEmpty) with _ | l
          · simp only [hf]
            exact ih _ _
          · simp only [hf]
            by_cases h5 : ¬ l.contains '|' = true
            · rw [if_pos h5]
            · rw [if_neg h5]
              exact ih _ _
        · rw [if_neg h4]
    · rw [if_neg hg]

theorem getD_mem_of_lt {lines : List (List Char)} {j : Nat} (h : j < lines.length) :
    lines.getD j [] ∈ lines := by
  rw [List.getD_eq_getElem?_getD, List.getElem?_eq_getElem h]
  exact List.getElem_mem h

theorem collectLoop_false_elems (lines : List (List Char)) (i : Nat) :
    ∀ (fuel j : Nat) (acc tl : List (List Char)) (j' : Nat),
      collectLoop lines i fuel j acc false = (tl, j', false) →
      ∀ l ∈ tl, l ∈ acc ∨ (l ∈ lines ∧ l.contains '|' = true) := by
  intro fuel
  induction fuel with
  | zero =>
    intro j acc tl j' hres l hl
    rw [collectLoop] at hres
    injection hres with h1 h2
    subst h1
    exact Or.inl hl
  | succ f ih =>
    intro j acc tl j' hres l hl
    rw [collectLoop] at hres
    by_cases hg : j < lines.length ∧ j < i + 50
    · rw [if_pos hg] at hres
      by_cases h1 : ¬ false = true ∧ (lines.getD j []).contains '|' = true ∧
          sepShape (trim (lines.getD j [])) = true
      · rw [if_pos h1] at hres
        have := collectLoop_fs_true lines i f (j + 1) (acc ++ [lines.getD j []])
        rw [hres] at this
        cases this
      · rw [if_neg h1, if_neg (by simp)] at hres
        by_cases h6 : (lines.getD j []).contains '|' = true ∧
            ¬ (trim (lines.getD j [])).isEmpty = true
        · rw [if_pos h6] at hres
          rcases ih _ _ _ _ hres l hl with hm | hm
          · rcases List.mem_append.mp hm with hm2 | hm2
            · exact Or.inl hm2
            · rw [List.mem_singleton] at hm2
              subst hm2
              exact Or.inr ⟨getD_mem_of_lt hg.1, h6.1⟩
          · exact Or.inr hm
        · rw [if_neg h6] at hres
          by_cases h7 : (trim (lines.getD j [])).isEmpty = true ∧ j < i + 3
          · rw [if_pos h7] at hres
            exact ih _ _ _ _ hres l hl
          · rw [if_neg h7] at hres
            injection hres with ha hb
            subst ha
            exact Or.inl hl
    · rw [if_neg hg] at hres
      injection hres with ha hb
      subst ha
      exact Or.inl hl

theorem convertMarkdownTable_some_of (tl : List (List Char)) (hlen : 2 ≤ tl.length)
    (hall : ∀ l ∈ tl, l.contains '|' = true ∧ '\n' ∉ l)
    (hfpc : 2 ≤ pipeCount (tl.headD [])) :
    (convertMarkdownTable (joinNL tl)).isSome = true := by
  obtain ⟨hL, hH⟩ := tableRows_joinNL_facts tl hlen hall
  have hne2 : ¬ (tableRows (joinNL tl)).length < 2 := by omega
  have hfpc2 : 2 ≤ pipeCount ((tableRows (joinNL tl)).headD []) := by
    rw [hH]
    exact hfpc
  have hpr := parseRow_length_ge hfpc2
  have hprne : parseRow ((tableRows (joinNL tl)).headD []) ≠ [] := by
    intro he
    rw [he] at hpr
    simp at hpr
  have hheader : (joinL (headerCellsArr (tableRows (joinNL tl)))).isEmpty = false := by
    rw [headerCellsArr]
    exact joinL_map_thCell_ne_nil hprne
  rw [convertMarkdownTable, if_neg hne2, if_neg (by simp [hheader])]
  rfl

/-- C4 counterexample: for the input `"a|b\nc|d"` the Block Formatter
collects two pipe lines with equal pipe counts and no separator — the
claim's hypotheses — yet both lines are rendered with per-line formatting
(each line having only one pipe, the code's `firstPipeCount >= 2` guard
rejects the headerless-table path). -/
theorem headerless_counterexample :
    (collectTable (splitLines "a|b\nc|d".data) 0).2.2 = false ∧
      2 ≤ (collectTable (splitLines "a|b\nc|d".data) 0).1.length ∧
      (collectTable (splitLines "a|b\nc|d".data) 0).1.all
        (fun l =>
          pipeCount l - pipeCount ((collectTable (splitLines "a|b\nc|d".data) 0).1.headD []) ≤ 1 ∧
            pipeCount ((collectTable (splitLines "a|b\nc|d".data) 0).1.headD []) -
              pipeCount l ≤ 1) = true ∧
      processLines (splitLines "a|b\nc|d".data) 2 0 =
        [MsgPart.line "a|b".data, MsgPart.line "c|d".data] := by
  refine ⟨?_, ?_, ?_, ?_⟩ <;> decide

/-- C4 (amended): when the collection starting at a pipe line finds no
separator, collects at least two pipe lines whose pipe counts are within
±1 of the first line's count, and — the condition the source adds at
App.js line 219 — the first line contains at least two pipes, the block is
rendered as a headerless table fragment rather than falling back to
per-line formatting. -/
theorem headerless_table_renders (s : List Char) (i : Nat) (tl : List (List Char)) (j : Nat)
    (hi : i < (splitLines s).length)
    (hpipe : ((splitLines s).getD i []).contains '|' = true)
    (hcol : collectTable (splitLines s) i = (tl, j, false))
    (hlen : 2 ≤ tl.length)
    (hsim : tl.all
      (fun l => pipeCount l - pipeCount (tl.headD []) ≤ 1 ∧
        pipeCount (tl.headD []) - pipeCount l ≤ 1) = true)
    (hfpc : 2 ≤ pipeCount (tl.headD [])) :
    (convertMarkdownTable (joinNL tl)).isSome = true ∧
      ∀ f : Nat, processLines (splitLines s) (f + 1) i =
        MsgPart.table ((convertMarkdownTable (joinNL tl)).getD []) ::
          processLines (splitLines s) f j := by
  have hall : ∀ l ∈ tl, l.contains '|' = true ∧ '\n' ∉ l := by
    intro l hl
    have hres : collectLoop (splitLines s) i 50 (i + 1)
        [(splitLines s).getD i []] false = (tl, j, false) := hcol
    rcases collectLoop_false_elems (splitLines s) i 50 (i + 1) _ tl j hres l hl with hm | hm
    · rw [List.mem_singleton] at hm
      subst hm
      exact ⟨hpipe, fun hnl => splitOnChar_not_mem '\n' s _ (getD_mem_of_lt hi) hnl⟩
    · exact ⟨hm.2, fun hnl => splitOnChar_not_mem '\n' s _ hm.1 hnl⟩
  have hsome := convertMarkdownTable_some_of tl hlen hall hfpc
  obtain ⟨v, hv⟩ := Option.isSome_iff_exists.mp hsome
  refine ⟨hsome, ?_⟩
  intro f
  have hdec : tableDecision (splitLines s) i = (some v, j) := by
    simp only [tableDecision]
    rw [hcol]
    split
    · rename_i h' heq
      rw [if_neg (by simp)] at heq
      cases heq
    · split
      · rename_i h' heq2
        rw [if_pos ⟨by simp, hlen, hsim, hfpc⟩] at heq2
        rw [hv] at heq2
        injection heq2 with he
        subst he
        rfl
      · rename_i heq2
        rw [if_pos ⟨by simp, hlen, hsim, hfpc⟩] at heq2
        rw [hv] at heq2
        cases heq2
  rw [processLines, if_pos hi, if_pos hpipe]
  simp only [hdec, hv, Option.getD_some]

/-- Witness for the amended C4: a two-row pipe block without separator is
rendered as one table part followed by the processing of the rest. -/
theorem headerless_table_renders_witness :
    (convertMarkdownTable (joinNL [" |a|b|".data, "|c|d|".data])).isSome = true ∧
      processLines (splitLines " |a|b|\n|c|d|".data) 2 0 =
        MsgPart.table ((convertMarkdownTable
            (joinNL [" |a|b|".data, "|c|d|".data])).getD []) ::
          processLines (splitLines " |a|b|\n|c|d|".data) 1 2 := by
  have h := headerless_table_renders " |a|b|\n|c|d|".data 0 [" |a|b|".data, "|c|d|".data] 2
    (by decide) (by decide) (by decide) (by decide) (by decide) (by decide)
  exact ⟨h.1, h.2 1⟩

theorem nil_isPrefixOf (l : List Char) : ([] : List Char).isPrefixOf l = true := by
  cases l <;> rfl

theorem isPrefixOf_self_append (p y : List Char) : p.isPrefixOf (p ++ y) = true := by
  induction p with
  | nil => exact nil_isPrefixOf _
  | cons a p' ih => simp [List.isPrefixOf, ih]

theorem isPrefixOf_append_ext (p r y : List Char) (h : p.isPrefixOf r = true) :
    p.isPrefixOf (r ++ y) = true := by
  induction p generalizing r with
  | nil => exact nil_isPrefixOf _
  | cons a p' ih =>
    cases r with
    | nil => simp [List.isPrefixOf] at h
    | cons b r' =>
      simp only [List.cons_append, List.isPrefixOf, Bool.and_eq_true] at h ⊢
      exact ⟨h.1, ih r' h.2⟩

theorem entityPre_ext (r y : List Char) (h : entityPre r = true) :
    entityPre (r ++ y) = true := by
  simp only [entityPre, Bool.or_eq_true] at h
  rcases h with (((h | h) | h) | h) | h <;>
    simp [entityPre, isPrefixOf_append_ext _ _ y h]

theorem entOnly_cons_bad (c : Char) (rest : List Char)
    (h1 : c = '<' ∨ c = '>' ∨ c = '"' ∨ c = quoteC) :
    entOnly (c :: rest) = false := by
  simp only [entOnly]
  rw [if_pos h1]

theorem entOnly_cons_amp (rest : List Char) :
    entOnly ('&' :: rest) = (entityPre rest && entOnly rest) := by
  simp only [entOnly]
  rw [if_neg (by decide), if_pos trivial]

theorem entOnly_cons_ord (c : Char) (rest : List Char)
    (h1 : ¬ (c = '<' ∨ c = '>' ∨ c = '"' ∨ c = quoteC)) (h2 : ¬ c = '&') :
    entOnly (c :: rest) = entOnly rest := by
  simp only [entOnly]
  rw [if_neg h1, if_neg h2]

theorem entOnly_tail {c : Char} {t : List Char} (h : entOnly (c :: t) = true) :
    entOnly t = true := by
  by_cases h1 : c = '<' ∨ c = '>' ∨ c = '"' ∨ c = quoteC
  · rw [entOnly_cons_bad c t h1] at h
    cases h
  · by_cases h2 : c = '&'
    · subst h2
      rw [entOnly_cons_amp, Bool.and_eq_true] at h
      exact h.2
    · rw [entOnly_cons_ord c t h1 h2] at h
      exact h

theorem entOnly_drop (s : List Char) (n : Nat) (h : entOnly s = true) :
    entOnly (s.drop n) = true := by
  induction n generalizing s with
  | zero => simpa using h
  | succ m ih =>
    cases s with
    | nil => simpa using h
    | cons c t =>
      rw [List.drop_succ_cons]
      exact ih t (entOnly_tail h)

theorem entOnly_amp (rest : List Char) (h : entOnly rest = true) :
    entOnly ("&amp;".data ++ rest) = true := by
  show entOnly ('&' :: ('a' :: 'm' :: 'p' :: ';' :: rest)) = true
  rw [entOnly_cons_amp]
  have hp : ("amp;".data).isPrefixOf ('a' :: 'm' :: 'p' :: ';' :: rest) = true :=
    isPrefixOf_self_append "amp;".data rest
  have h1 : entityPre ('a' :: 'm' :: 'p' :: ';' :: rest) = true := by
    simp [entityPre, hp]
  rw [h1, entOnly_cons_ord 'a' _ (by decide) (by decide),
    entOnly_cons_ord 'm' _ (by decide) (by decide),
    entOnly_cons_ord 'p' _ (by decide) (by decide),
    entOnly_cons_ord ';' _ (by decide) (by decide), h]
  rfl

theorem entOnly_ltE (rest : List Char) (h : entOnly rest = true) :
    entOnly ("&lt;".data ++ rest) = true := by
  show entOnly ('&' :: ('l' :: 't' :: ';' :: rest)) = true
  rw [entOnly_cons_amp]
  have hp : ("lt;".data).isPrefixOf ('l' :: 't' :: ';' :: rest) = true :=
    isPrefixOf_self_append "lt;".data rest
  have h1 : entityPre ('l' :: 't' :: ';' :: rest) = true := by
    simp [entityPre, hp]
  rw [h1, entOnly_cons_ord 'l' _ (by decide) (by decide),
    entOnly_cons_ord 't' _ (by decide) (by decide),
    entOnly_cons_ord ';' _ (by decide) (by decide), h]
  rfl

theorem entOnly_gtE (rest : List Char) (h : entOnly rest = true) :
    entOnly ("&gt;".data ++ rest) = true := by
  show entOnly ('&' :: ('g' :: 't' :: ';' :: rest)) = true
  rw [entOnly_cons_amp]
  have hp : ("gt;".data).isPrefixOf ('g' :: 't' :: ';' :: rest) = true :=
    isPrefixOf_self_append "gt;".data rest
  have h1 : entityPre ('g' :: 't' :: ';' :: rest) = true := by
    simp [entityPre, hp]
  rw [h1, entOnly_cons_ord 'g' _ (by decide) (by decide),
    entOnly_cons_ord 't' _ (by decide) (by decide),
    entOnly_cons_ord ';' _ (by decide) (by decide), h]
  rfl

theorem entOnly_quotE (rest : List Char) (h : entOnly rest = true) :
    entOnly ("&quot;".data ++ rest) = true := by
  show entOnly ('&' :: ('q' :: 'u' :: 'o' :: 't' :: ';' :: rest)) = true
  rw [entOnly_cons_amp]
  have hp : ("quot;".data).isPrefixOf ('q' :: 'u' :: 'o' :: 't' :: ';' :: rest) = true :=
    isPrefixOf_self_append "quot;".data rest
  have h1 : entityPre ('q' :: 'u' :: 'o' :: 't' :: ';' :: rest) = true := by
    simp [entityPre, hp]
  rw [h1, entOnly_cons_ord 'q' _ (by decide) (by decide),
    entOnly_cons_ord 'u' _ (by decide) (by decide),
    entOnly_cons_ord 'o' _ (by decide) (by decide),
    entOnly_cons_ord 't' _ (by decide) (by decide),
    entOnly_cons_ord ';' _ (by decide) (by decide), h]
  rfl

theorem entOnly_aposE (rest : List Char) (h : entOnly rest = true) :
    entOnly ("&#039;".data ++ rest) = true := by
  show entOnly ('&' :: ('#' :: '0' :: '3' :: '9' :: ';' :: rest)) = true
  rw [entOnly_cons_amp]
  have hp : ("#039;".data).isPrefixOf ('#' :: '0' :: '3' :: '9' :: ';' :: rest) = true :=
    isPrefixOf_self_append "#039;".data rest
  have h1 : entityPre ('#' :: '0' :: '3' :: '9' :: ';' :: rest) = true := by
    simp [entityPre, hp]
  rw [h1, entOnly_cons_ord '#' _ (by decide) (by decide),
    entOnly_cons_ord '0' _ (by decide) (by decide),
    entOnly_cons_ord '3' _ (by decide) (by decide),
    entOnly_cons_ord '9' _ (by decide) (by decide),
    entOnly_cons_ord ';' _ (by decide) (by decide), h]
  rfl

theorem escChar_entOnly (c : Char) (rest : List Char) (h : entOnly rest = true) :
    entOnly (escChar c ++ rest) = true := by
  by_cases h1 : c = '&'
  · subst h1
    exact entOnly_amp rest h
  · by_cases h2 : c = '<'
    · subst h2
      exact entOnly_ltE rest h
    · by_cases h3 : c = '>'
      · subst h3
        exact entOnly_gtE rest h
      · by_cases h4 : c = '"'
        · subst h4
          exact entOnly_quotE rest h
        · by_cases h5 : c = quoteC
          · subst h5
            exact entOnly_aposE rest h
          · have he : escChar c = [c] := by
              simp only [escChar]
              rw [if_neg h1, if_neg h2, if_neg h3, if_neg h4, if_neg h5]
            have hno : ¬ (c = '<' ∨ c = '>' ∨ c = '"' ∨ c = quoteC) := by
              rintro (hx | hx | hx | hx)
              exacts [h2 hx, h3 hx, h4 hx, h5 hx]
            rw [he, List.singleton_append, entOnly_cons_ord c rest hno h1]
            exact h

theorem escapeHtml_entOnly (s : List Char) : entOnly (escapeHtml s) = true := by
  induction s with
  | nil => rfl
  | cons c t ih =>
    simp only [escapeHtml]
    exact escChar_entOnly c _ ih

theorem head_drop_of_isPrefixOf (p : List Char) (t : List Char) (b : Nat)
    (hp : p.isPrefixOf t = true) (hb : b < p.length) :
    (t.drop b).head? = (p.drop b).head? := by
  induction p generalizing t b with
  | nil => simp at hb
  | cons a p' ih =>
    cases t with
    | nil => simp [List.isPrefixOf] at hp
    | cons c t' =>
      simp only [List.isPrefixOf, Bool.and_eq_true] at hp
      have hac : a = c := eq_of_beq hp.1
      cases b with
      | zero =>
        simp only [List.drop_zero, List.head?_cons]
        rw [hac]
      | succ b' =>
        simp only [List.drop_succ_cons]
        refine ih t' b' hp.2 ?_
        simp only [List.length_cons] at hb
        omega

theorem isPrefixOf_take_of_le (p : List Char) (t : List Char) (b : Nat)
    (hp : p.isPrefixOf t = true) (hb : p.length ≤ b) :
    p.isPrefixOf (t.take b) = true := by
  induction p generalizing t b with
  | nil => exact nil_isPrefixOf _
  | cons a p' ih =>
    cases t with
    | nil => simp [List.isPrefixOf] at hp
    | cons c t' =>
      cases b with
      | zero =>
        simp only [List.length_cons] at hb
        omega
      | succ b' =>
        simp only [List.take_succ_cons, List.isPrefixOf, Bool.and_eq_true] at hp ⊢
        refine ⟨hp.1, ih t' b' hp.2 ?_⟩
        simp only [List.length_cons] at hb
        omega

theorem entityPre_take (t : List Char) (b : Nat) (hp : entityPre t = true)
    (hs : (t.drop b).head? = some '*') : entityPre (t.take b) = true := by
  simp only [entityPre, Bool.or_eq_true] at hp
  rcases hp with (((h | h) | h) | h) | h
  · by_cases hb : 4 ≤ b
    · have hple := isPrefixOf_take_of_le _ _ _ h (by simpa using hb)
      simp [entityPre, hple]
    · exfalso
      have h9 := head_drop_of_isPrefixOf _ _ b h (by simp; omega)
      rw [h9] at hs
      have hbn : b < 4 := by omega
      interval_cases b <;> exact absurd hs (by decide)
  · by_cases hb : 3 ≤ b
    · have hple := isPrefixOf_take_of_le _ _ _ h (by simpa using hb)
      simp [entityPre, hple]
    · exfalso
      have h9 := head_drop_of_isPrefixOf _ _ b h (by simp; omega)
      rw [h9] at hs
      have hbn : b < 3 := by omega
      interval_cases b <;> exact absurd hs (by decide)
  · by_cases hb : 3 ≤ b
    · have hple := isPrefixOf_take_of_le _ _ _ h (by simpa using hb)
      simp [entityPre, hple]
    · exfalso
      have h9 := head_drop_of_isPrefixOf _ _ b h (by simp; omega)
      rw [h9] at hs
      have hbn : b < 3 := by omega
      interval_cases b <;> exact absurd hs (by decide)
  · by_cases hb : 5 ≤ b
    · have hple := isPrefixOf_take_of_le _ _ _ h (by simpa using hb)
      simp [entityPre, hple]
    · exfalso
      have h9 := head_drop_of_isPrefixOf _ _ b h (by simp; omega)
      rw [h9] at hs
      have hbn : b < 5 := by omega
      interval_cases b <;> exact absurd hs (by decide)
  · by_cases hb : 5 ≤ b
    · have hple := isPrefixOf_take_of_le _ _ _ h (by simpa using hb)
      simp [entityPre, hple]
    · exfalso
      have h9 := head_drop_of_isPrefixOf _ _ b h (by simp; omega)
      rw [h9] at hs
      have hbn : b < 5 := by omega
      interval_cases b <;> exact absurd hs (by decide)

theorem entOnly_take_star (s : List Char) (a : Nat) (h : entOnly s = true)
    (hs : (s.drop a).head? = some '*') : entOnly (s.take a) = true := by
  induction s generalizing a with
  | nil =>
    rw [List.take_nil]
    rfl
  | cons c t ih =>
    cases a with
    | zero => rfl
    | succ b =>
      rw [List.take_succ_cons]
      rw [List.drop_succ_cons] at hs
      by_cases h1 : c = '<' ∨ c = '>' ∨ c = '"' ∨ c = quoteC
      · rw [entOnly_cons_bad c t h1] at h
        cases h
      · by_cases h2 : c = '&'
        · subst h2
          rw [entOnly_cons_amp, Bool.and_eq_true] at h
          rw [entOnly_cons_amp, Bool.and_eq_true]
          exact ⟨entityPre_take t b h.1 hs, ih b h.2 hs⟩
        · rw [entOnly_cons_ord c t h1 h2] at h
          rw [entOnly_cons_ord c _ h1 h2]
          exact ih b h hs

theorem findSub_isPrefixOf (t s : List Char) (a : Nat) (h : findSub t s = some a) :
    t.isPrefixOf (s.drop a) = true := by
  induction s generalizing a with
  | nil =>
    simp only [findSub] at h
    split at h
    · rename_i ht
      injection h with h0
      subst h0
      cases t with
      | nil => rfl
      | cons x xs => simp at ht
    · cases h
  | cons c r ih =>
    simp only [findSub] at h
    split at h
    · rename_i hc
      injection h with h0
      subst h0
      simpa using hc
    · rw [Option.map_eq_some'] at h
      obtain ⟨b, hb, hba⟩ := h
      subst hba
      rw [List.drop_succ_cons]
      exact ih b hb

theorem star2_head (z : List Char) (h : star2.isPrefixOf z = true) :
    z.head? = some '*' := by
  cases z with
  | nil => simp [star2, List.isPrefixOf] at h
  | cons x z' =>
    simp only [star2, List.isPrefixOf, Bool.and_eq_true] at h
    rw [List.head?_cons, ← eq_of_beq h.1]

theorem proseOkF_nil (n : Nat) : proseOkF n [] = true := by
  cases n <;> rfl

theorem proseOkF_mono (f k : Nat) (s : List Char) (h : proseOkF f s = true) :
    proseOkF (f + k) s = true := by
  induction f generalizing s with
  | zero =>
    cases s with
    | nil => exact proseOkF_nil _
    | cons c rest => simp [proseOkF] at h
  | succ f' ih =>
    cases s with
    | nil => exact proseOkF_nil _
    | cons c rest =>
      have hk : f' + 1 + k = (f' + k) + 1 := by omega
      rw [hk]
      simp only [proseOkF] at h ⊢
      by_cases h1 : c = '<'
      · rw [if_pos h1] at h ⊢
        by_cases h2 : strongOpenRest.isPrefixOf rest = true
        · rw [if_pos h2] at h ⊢
          exact ih _ h
        · rw [if_neg h2] at h ⊢
          by_cases h3 : strongCloseRest.isPrefixOf rest = true
          · rw [if_pos h3] at h ⊢
            exact ih _ h
          · rw [if_neg h3] at h
            cases h
      · rw [if_neg h1] at h ⊢
        by_cases h2 : c = '>' ∨ c = '"' ∨ c = quoteC
        · rw [if_pos h2] at h
          cases h
        · rw [if_neg h2] at h ⊢
          by_cases h3 : c = '&'
          · rw [if_pos h3] at h ⊢
            rw [Bool.and_eq_true] at h ⊢
            exact ⟨h.1, ih _ h.2⟩
          · rw [if_neg h3] at h ⊢
            exact ih _ h

theorem entOnly_proseOkF (s : List Char) (h : entOnly s = true) :
    proseOkF s.length s = true := by
  induction s with
  | nil => rfl
  | cons c t ih =>
    simp only [List.length_cons, proseOkF]
    by_cases h1 : c = '<' ∨ c = '>' ∨ c = '"' ∨ c = quoteC
    · rw [entOnly_cons_bad c t h1] at h
      cases h
    · have hlt : ¬ c = '<' := fun hx => h1 (Or.inl hx)
      have hro : ¬ (c = '>' ∨ c = '"' ∨ c = quoteC) := fun hx => h1 (Or.inr hx)
      rw [if_neg hlt, if_neg hro]
      by_cases h2 : c = '&'
      · subst h2
        rw [entOnly_cons_amp, Bool.and_eq_true] at h
        rw [if_pos rfl, Bool.and_eq_true]
        exact ⟨h.1, ih h.2⟩
      · rw [entOnly_cons_ord c t h1 h2] at h
        rw [if_neg h2]
        exact ih h

theorem proseOkF_entPrefix (x : List Char) (g : Nat) (y : List Char)
    (hx : entOnly x = true) (hy : proseOkF g y = true) :
    proseOkF (x.length + g) (x ++ y) = true := by
  induction x with
  | nil => simpa using hy
  | cons c x' ih =>
    have hf : (c :: x').length + g = (x'.length + g) + 1 := by
      simp only [List.length_cons]
      omega
    rw [hf, List.cons_append]
    simp only [proseOkF]
    by_cases h1 : c = '<' ∨ c = '>' ∨ c = '"' ∨ c = quoteC
    · rw [entOnly_cons_bad c x' h1] at hx
      cases hx
    · have hlt : ¬ c = '<' := fun hz => h1 (Or.inl hz)
      have hro : ¬ (c = '>' ∨ c = '"' ∨ c = quoteC) := fun hz => h1 (Or.inr hz)
      rw [if_neg hlt, if_neg hro]
      by_cases h2 : c = '&'
      · subst h2
        rw [entOnly_cons_amp, Bool.and_eq_true] at hx
        rw [if_pos rfl, Bool.and_eq_true]
        exact ⟨entityPre_ext x' y hx.1, ih hx.2⟩
      · rw [entOnly_cons_ord c x' h1 h2] at hx
        rw [if_neg h2]
        exact ih hx

theorem proseOkF_strongOpen (y : List Char) (g : Nat) (h : proseOkF g y = true) :
    proseOkF (g + 1) ("<strong>".data ++ y) = true := by
  show proseOkF (g + 1) ('<' :: (['s', 't', 'r', 'o', 'n', 'g', '>'] ++ y)) = true
  simp only [proseOkF, strongOpenRest, strongCloseRest]
  rw [if_pos trivial]
  rw [if_pos (show ((['s', 't', 'r', 'o', 'n', 'g', '>'] : List Char).isPrefixOf
      (['s', 't', 'r', 'o', 'n', 'g', '>'] ++ y)) = true from
    isPrefixOf_self_append ['s', 't', 'r', 'o', 'n', 'g', '>'] y)]
  rw [show List.drop 7 ((['s', 't', 'r', 'o', 'n', 'g', '>'] : List Char) ++ y) = y from
    List.drop_left ['s', 't', 'r', 'o', 'n', 'g', '>'] y]
  exact h

theorem proseOkF_strongClose (y : List Char) (g : Nat) (h : proseOkF g y = true) :
    proseOkF (g + 1) ("</strong>".data ++ y) = true := by
  show proseOkF (g + 1) ('<' :: (['/', 's', 't', 'r', 'o', 'n', 'g', '>'] ++ y)) = true
  simp only [proseOkF, strongOpenRest, strongCloseRest]
  rw [if_pos trivial]
  have hno : (['s', 't', 'r', 'o', 'n', 'g', '>'] : List Char).isPrefixOf
      (['/', 's', 't', 'r', 'o', 'n', 'g', '>'] ++ y) = false := by
    simp only [List.cons_append, List.isPrefixOf]
    rw [show ('s' == '/') = false from by decide, Bool.false_and]
  rw [hno, if_neg Bool.false_ne_true]
  rw [if_pos (show ((['/', 's', 't', 'r', 'o', 'n', 'g', '>'] : List Char).isPrefixOf
      (['/', 's', 't', 'r', 'o', 'n', 'g', '>'] ++ y)) = true from
    isPrefixOf_self_append ['/', 's', 't', 'r', 'o', 'n', 'g', '>'] y)]
  rw [show List.drop 8 ((['/', 's', 't', 'r', 'o', 'n', 'g', '>'] : List Char) ++ y) = y from
    List.drop_left ['/', 's', 't', 'r', 'o', 'n', 'g', '>'] y]
  exact h

theorem boldAllF_proseOk (f : Nat) (s : List Char) (h : entOnly s = true) :
    proseOk (boldAllF f s) = true := by
  induction f generalizing s with
  | zero => exact entOnly_proseOkF s h
  | succ f' ih =>
    cases hfa : findSub star2 s with
    | none =>
      simp only [boldAllF, hfa]
      exact entOnly_proseOkF s h
    | some a =>
      cases hfd : findSub star2 (s.drop (a + 2)) with
      | none =>
        simp only [boldAllF, hfa, hfd]
        exact entOnly_proseOkF s h
      | some d =>
        simp only [boldAllF, hfa, hfd]
        set B := boldAllF f' (s.drop (a + 2 + d + 2)) with hB
        have hpa := findSub_isPrefixOf star2 s a hfa
        have hstarA : (s.drop a).head? = some '*' := star2_head _ hpa
        have hA : entOnly (s.take a) = true := entOnly_take_star s a h hstarA
        have hdrop : entOnly (s.drop (a + 2)) = true := entOnly_drop s (a + 2) h
        have hpd := findSub_isPrefixOf star2 (s.drop (a + 2)) d hfd
        have hstarD : ((s.drop (a + 2)).drop d).head? = some '*' := star2_head _ hpd
        have hM : entOnly ((s.drop (a + 2)).take d) = true :=
          entOnly_take_star _ d hdrop hstarD
        have hrest : entOnly (s.drop (a + 2 + d + 2)) = true := entOnly_drop s _ h
        have hBok : proseOk B = true := by
          rw [hB]
          exact ih _ hrest
        have h1 : proseOkF (B.length + 1) ("</strong>".data ++ B) = true :=
          proseOkF_strongClose B B.length hBok
        have h2 : proseOkF (((s.drop (a + 2)).take d).length + (B.length + 1))
            ((s.drop (a + 2)).take d ++ ("</strong>".data ++ B)) = true :=
          proseOkF_entPrefix _ _ _ hM h1
        have h3 : proseOkF ((((s.drop (a + 2)).take d).length + (B.length + 1)) + 1)
            ("<strong>".data ++ ((s.drop (a + 2)).take d ++ ("</strong>".data ++ B))) = true :=
          proseOkF_strongOpen _ _ h2
        have hfin : proseOkF
            ((s.take a).length + ((((s.drop (a + 2)).take d).length + (B.length + 1)) + 1))
            (s.take a ++ ("<strong>".data ++
              ((s.drop (a + 2)).take d ++ ("</strong>".data ++ B)))) = true :=
          proseOkF_entPrefix _ _ _ hA h3
        have hfin2 : proseOkF
            ((s.take a ++ ("<strong>".data ++
              ((s.drop (a + 2)).take d ++ ("</strong>".data ++ B)))).length)
            (s.take a ++ ("<strong>".data ++
              ((s.drop (a + 2)).take d ++ ("</strong>".data ++ B)))) = true := by
          have hlen : (s.take a ++ ("<strong>".data ++
              ((s.drop (a + 2)).take d ++ ("</strong>".data ++ B)))).length =
              ((s.take a).length +
                ((((s.drop (a + 2)).take d).length + (B.length + 1)) + 1)) + 15 := by
            simp only [List.length_append]
            rw [show ("<strong>".data).length = 8 from rfl,
              show ("</strong>".data).length = 9 from rfl]
            omega
          rw [hlen]
          exact proseOkF_mono _ 15 _ hfin
        simp only [List.append_assoc]
        exact hfin2

/-- C5. Every HTML metacharacter of the user text reaches the rendered prose
only in escaped form: (1) after the single `escapeHtml` pass the content is
in entity form — no raw `<`, `>`, `"` or `'` remains and every `&` opens one
of the five entities of the map; (2) applying bold conversion after escaping
keeps every input metacharacter in entity form, the only raw angle brackets
delimiting the inserted `<strong>`/`</strong>` tags; (3) in every rendering
class — table header and data cells, headers, `•` bullets, single-`*`
bullets, `◦`/three-space indented items and plain lines — the content is
passed through `escapeHtml` exactly once and bold conversion runs after
escaping (indented items are escaped and not bold-converted, as in the
source); (4) in particular the output of `formatMessage` never contains the
unescaped substring `<script>`. -/
theorem formatMessage_escaping_contract :
    (∀ s : List Char, entOnly (escapeHtml s) = true) ∧
    (∀ s : List Char, proseOk (boldAll (escapeHtml s)) = true) ∧
    (∀ cell : List Char,
      thCell cell = "<th>".data ++ boldAll (escapeHtml cell) ++ "</th>".data ∧
      tdCell cell = "<td>".data ++ boldAll (escapeHtml cell) ++ "</td>".data) ∧
    (∀ line : List Char, (trim line).head? = some '#' →
      ¬ (trim (((trim line).dropWhile (fun c => c = '#')).dropWhile isWS)).isEmpty →
      renderLine line = [headerTplPre ++
        boldAll (escapeHtml
          (trim (((trim line).dropWhile (fun c => c = '#')).dropWhile isWS))) ++
        divClose]) ∧
    (∀ line : List Char, (trim line).head? = some '•' →
      renderLine line = [bulletTplPre ++
        boldAll (escapeHtml (trim ((trim line).drop 1))) ++ divClose]) ∧
    (∀ line : List Char, (trim line).head? = some '*' →
      ¬ ((trim line).drop 1).head? = some '*' →
      renderLine line = [bulletTplPre ++
        boldAll (escapeHtml (trim ((trim line).drop 1))) ++ divClose]) ∧
    (∀ line : List Char, (trim line).head? = some '◦' →
      renderLine line = [indentTplPre ++
        escapeHtml (trim (((trim line).drop 1).dropWhile isWS)) ++ divClose]) ∧
    (∀ line : List Char, (' ' :: ' ' :: [' ']).isPrefixOf line →
      ¬ (trim line).head? = some '#' → ¬ (trim line).head? = some '*' →
      ¬ (trim line).head? = some '•' → ¬ (trim line).head? = some '◦' →
      renderLine line = [indentTplPre ++ escapeHtml (trim (trim line)) ++ divClose]) ∧
    (∀ line : List Char, ¬ (trim line).isEmpty →
      ¬ (trim line).head? = some '#' → ¬ (trim line).head? = some '•' →
      ¬ ((trim line).head? = some '*' ∧ ¬ ((trim line).drop 1).head? = some '*') →
      ¬ ((trim line).head? = some '◦' ∨
        ((' ' :: ' ' :: [' ']).isPrefixOf line ∧ ¬ (trim line).head? = some '*' ∧
          ¬ (trim line).head? = some '•')) →
      renderLine line = [regularTplPre ++ boldAll (escapeHtml (trim line)) ++ divClose]) ∧
    (∀ text : List Char, hasSubstr scriptTag (formatMessage text) = false) := by
  refine ⟨escapeHtml_entOnly,
    fun s => boldAllF_proseOk _ _ (escapeHtml_entOnly s),
    fun cell => ⟨rfl, rfl⟩, ?_, ?_, ?_, ?_, ?_, ?_, formatMessage_no_script_substr⟩
  · intro line hh hne
    simp only [renderLine]
    rw [if_pos hh]
    simp only [headerFrag]
    rw [if_pos hne]
  · intro line hb
    have hh : ¬ (trim line).head? = some '#' := by
      intro hx
      rw [hb] at hx
      exact absurd hx (by decide)
    simp only [renderLine]
    rw [if_neg hh, if_pos hb]
  · intro line hs hns
    have hh : ¬ (trim line).head? = some '#' := by
      intro hx
      rw [hs] at hx
      exact absurd hx (by decide)
    have hb : ¬ (trim line).head? = some '•' := by
      intro hx
      rw [hs] at hx
      exact absurd hx (by decide)
    simp only [renderLine]
    rw [if_neg hh, if_neg hb, if_pos ⟨hs, hns⟩]
  · intro line hc
    have hh : ¬ (trim line).head? = some '#' := by
      intro hx
      rw [hc] at hx
      exact absurd hx (by decide)
    have hb : ¬ (trim line).head? = some '•' := by
      intro hx
      rw [hc] at hx
      exact absurd hx (by decide)
    have hst : ¬ ((trim line).head? = some '*' ∧ ¬ ((trim line).drop 1).head? = some '*') := by
      intro hx
      have := hx.1
      rw [hc] at this
      exact absurd this (by decide)
    simp only [renderLine]
    rw [if_neg hh, if_neg hb, if_neg hst, if_pos (Or.inl hc), if_pos hc]
  · intro line hp hh hst hbul hcirc
    have hst' : ¬ ((trim line).head? = some '*' ∧ ¬ ((trim line).drop 1).head? = some '*') :=
      fun hx => hst hx.1
    simp only [renderLine]
    rw [if_neg hh, if_neg hbul, if_neg hst', if_pos (Or.inr ⟨hp, hst, hbul⟩), if_neg hcirc]
  · intro line hne hh hb hst hind
    simp only [renderLine]
    rw [if_neg hh, if_neg hb, if_neg hst, if_neg hind, if_pos hne]

/-- Witness for C5: each conjunct of the escaping contract applied at a
concrete input that exercises its hypotheses — escaped content of a string
holding all five metacharacters is in entity form, a bolded escaped string
passes the prose scanner, and one line of each rendering class is rendered
as its template around the escaped (then bold-converted) content. -/
theorem formatMessage_escaping_contract_witness :
    entOnly (escapeHtml "a<b>c&d\"e'f".data) = true ∧
    proseOk (boldAll (escapeHtml "x **a<&b** 'q'".data)) = true ∧
    thCell "a<b".data = "<th>".data ++ boldAll (escapeHtml "a<b".data) ++ "</th>".data ∧
    renderLine "# He<ad".data = [headerTplPre ++
      boldAll (escapeHtml
        (trim (((trim "# He<ad".data).dropWhile (fun c => c = '#')).dropWhile isWS))) ++
      divClose] ∧
    renderLine "• a&b".data = [bulletTplPre ++
      boldAll (escapeHtml (trim ((trim "• a&b".data).drop 1))) ++ divClose] ∧
    renderLine "* c\"d".data = [bulletTplPre ++
      boldAll (escapeHtml (trim ((trim "* c\"d".data).drop 1))) ++ divClose] ∧
    renderLine "◦ in'd".data = [indentTplPre ++
      escapeHtml (trim (((trim "◦ in'd".data).drop 1).dropWhile isWS)) ++ divClose] ∧
    renderLine "   sp<ace".data = [indentTplPre ++
      escapeHtml (trim (trim "   sp<ace".data)) ++ divClose] ∧
    renderLine "re>gular".data = [regularTplPre ++
      boldAll (escapeHtml (trim "re>gular".data)) ++ divClose] ∧
    hasSubstr scriptTag (formatMessage "<script>alert(1)</script>".data) = false := by
  obtain ⟨h1, h2, h3, h4, h5, h6, h7, h8, h9, h10⟩ := formatMessage_escaping_contract
  exact ⟨h1 _, h2 _, (h3 _).1,
    h4 _ (by decide) (by decide),
    h5 _ (by decide),
    h6 _ (by decide) (by decide),
    h7 _ (by decide),
    h8 _ (by decide) (by decide) (by decide) (by decide) (by decide),
    h9 _ (by decide) (by decide) (by decide) (by decide) (by decide),
    h10 _⟩

end Zia
